import Mathlib

/-!
Shallow embedding of `src/index.ts` of the generate-json-patch repository.

The TypeScript source defines `generateJSONPatch(before, after, config)`,
a recursive JSON differ with two array-reconciliation strategies
(index-based and hash-based, selected by `config.objectHash`), a
property filter, and optional suppression of array `move` operations.

Modelling decisions (each noted again at the definition it concerns):
* JSON values are the inductive `JsonValue` (null / bool / number /
  string / array / object-as-ordered-field-list).  JavaScript numbers
  are modelled as `Int` (the claims only involve integral numbers);
  object fields keep insertion order, as JS objects do for the
  non-integral keys used throughout the spec and claims.
* JavaScript strict equality `===` at the two places the source uses it
  on values (the primitive gate and the scalar field comparison) is
  modelled as structural equality: at both places at least one operand
  is a primitive, where `===` and structural equality agree.
* `JSON.stringify(a) === JSON.stringify(b)` in `compareArrays` is
  modelled as structural equality of the two arrays: on the JSON value
  model, serialized equality and deep structural equality coincide.
* The single `throw Error('No objectHash function provided')` is
  modelled with `Except`; all functions also take a `fuel` argument so
  that the mutual recursion is structural (kernel-computable).  Fuel
  exhaustion is the distinguished failure `DiffFailure.outOfFuel`, a
  modelling artifact that provably never occurs for sufficient fuel.
-/

namespace GenJsonPatch

/-- Which input value a sub-value came from (`side` of a callback context). -/
inductive Side where
  | left
  | right
deriving DecidableEq, Repr

/-- A JSON value: null, boolean, number, string, array, or object.
Objects are ordered association lists, reflecting JS insertion order. -/
inductive JsonValue where
  | null
  | bool (b : Bool)
  | num (n : Int)
  | str (s : String)
  | arr (elems : List JsonValue)
  | obj (fields : List (String × JsonValue))

/-- An RFC-6902-style operation, mirroring the `Operation` union type of the
source.  The `move`/`copy` source field `from` is spelled `fromPath`
(`from` is a Lean keyword). -/
inductive Operation where
  | add (path : String) (value : JsonValue)
  | remove (path : String)
  | replace (path : String) (value : JsonValue)
  | move (fromPath : String) (path : String)
  | copy (fromPath : String) (path : String)
  | test (path : String) (value : JsonValue)

mutual

/-- Structural equality of JSON values.  This models the two equality tests
of the source: strict equality `===` (used only where at least one
operand is a primitive, where it coincides with structural equality) and
`JSON.stringify(a) === JSON.stringify(b)` (which on JSON values is deep
structural equality). -/
def jvBEq : JsonValue → JsonValue → Bool
  | .null, .null => true
  | .bool a, .bool b => a == b
  | .num a, .num b => a == b
  | .str a, .str b => a == b
  | .arr a, .arr b => jvBEqList a b
  | .obj a, .obj b => jvBEqFields a b
  | _, _ => false

/-- Elementwise structural equality of JSON arrays. -/
def jvBEqList : List JsonValue → List JsonValue → Bool
  | [], [] => true
  | x :: xs, y :: ys => jvBEq x y && jvBEqList xs ys
  | _, _ => false

/-- Fieldwise structural equality of JSON objects (order-sensitive, like
`JSON.stringify` on objects with the same insertion order). -/
def jvBEqFields : List (String × JsonValue) → List (String × JsonValue) → Bool
  | [], [] => true
  | (k, v) :: xs, (k', v') :: ys => k == k' && jvBEq v v' && jvBEqFields xs ys
  | _, _ => false

end

mutual

/-- Structural size of a JSON value, used only to compute a sufficient fuel
bound for the embedded recursion. -/
def jsonSize : JsonValue → Nat
  | .null => 1
  | .bool _ => 1
  | .num _ => 1
  | .str _ => 1
  | .arr l => 1 + jsonSizeList l
  | .obj f => 1 + jsonSizeFields f

/-- Structural size of a JSON array's element list. -/
def jsonSizeList : List JsonValue → Nat
  | [] => 1
  | x :: xs => 1 + jsonSize x + jsonSizeList xs

/-- Structural size of a JSON object's field list. -/
def jsonSizeFields : List (String × JsonValue) → Nat
  | [] => 1
  | (_, v) :: rest => 1 + jsonSize v + jsonSizeFields rest

end

/-- `Patch`: an ordered operation list. -/
abbrev Patch := List Operation

/-- Context handed to the external callbacks: which side and which path. -/
structure GeneratePatchContext where
  side : Side
  path : String

/-- `ObjectHash` callback type. -/
abbrev ObjectHash := JsonValue → GeneratePatchContext → String

/-- `PropertyFilter` callback type. -/
abbrev PropertyFilter := String → GeneratePatchContext → Bool

/-- `JsonPatchConfig`.  `array?.ignoreMove` is flattened to the Boolean
`arrayIgnoreMove` (absent nesting is falsy in the source). -/
structure JsonPatchConfig where
  objectHash : Option ObjectHash := none
  propertyFilter : Option PropertyFilter := none
  arrayIgnoreMove : Bool := false

/-- A failure of the embedded algorithm: either a thrown JS `Error` with its
message, or exhaustion of the structural-recursion fuel (a modelling
artifact; see `generateJSONPatch_total`). -/
inductive DiffFailure where
  | thrown (msg : String)
  | outOfFuel
deriving DecidableEq, Repr

/-- `isPrimitiveValue` of the source: null, string, number or boolean.
(The `undefined` cases of the source cannot arise in the JSON value model.) -/
def isPrimitiveValue : JsonValue → Bool
  | .null => true
  | .bool _ => true
  | .num _ => true
  | .str _ => true
  | _ => false

/-- `isJsonObject` of the source: `value?.constructor === Object`, i.e. a
plain object — true exactly for the `obj` constructor. -/
def isJsonObject : JsonValue → Bool
  | .obj _ => true
  | _ => false

/-- Property lookup `value[key]`: the first field with the given key
(JS objects cannot repeat keys, so first-match lookup is faithful). -/
def objGet (fields : List (String × JsonValue)) (k : String) : Option JsonValue :=
  match fields with
  | [] => none
  | (k', v) :: rest => if k' == k then some v else objGet rest k

/-- `value.hasOwnProperty(key)` on the object model. -/
def objHasOwn (fields : List (String × JsonValue)) (k : String) : Bool :=
  (objGet fields k).isSome

/-- First index satisfying a predicate, as used by `Array.prototype.indexOf`
(`none` models the JS result `-1`). -/
def jsFindIndex (p : String → Bool) : List String → Option Nat
  | [] => none
  | s :: rest => if p s then some 0 else (jsFindIndex p rest).map (· + 1)

/-- `array.indexOf(s)` where the caller has ensured the element is present;
for an absent element it returns `array.length` instead of the JS `-1`
(every use site in the algorithm looks up a present element). -/
def jsIndexOf (l : List String) (s : String) : Nat :=
  (jsFindIndex (fun x => x == s) l).getD l.length

/-- `moveArrayElement` of the source:
`array.splice(to, 0, array.splice(from, 1)[0])` — remove the element at
`i`, re-insert it before index `j` (append when `j` exceeds the length,
as `splice` does).  For an out-of-range `i` the source would splice in
`undefined`; that case is unreachable (the algorithm computes `i` by a
successful `indexOf`) and is modelled as the identity. -/
def moveArrayElement (l : List String) (i j : Nat) : List String :=
  match l[i]? with
  | some x =>
    let l' := l.eraseIdx i
    l'.take j ++ [x] ++ l'.drop j
  | none => l

/-- The per-key filter decision: a key is kept unless a `propertyFilter` is
configured and returns `false` for it
(`hasPropertyFilter && !propertyFilter(key, ctx)` skips the key). -/
def keptByFilter (cfg : JsonPatchConfig) (k : String) (side : Side) (path : String) : Bool :=
  match cfg.propertyFilter with
  | none => true
  | some pf => pf k ⟨side, path⟩

/-- The second `for..in` loop of `compareObjects`: every left key absent from
the right object (and not excluded by the left-side filter) yields a
`remove`.  Pure: it never recurses into the differ. -/
def leftKeyLoop (cfg : JsonPatchConfig) (path : String)
    (rf : List (String × JsonValue)) : List (String × JsonValue) → Patch
  | [] => []
  | (k, _) :: rest =>
    if !(keptByFilter cfg k .left path) then
      leftKeyLoop cfg path rf rest
    else if !(objHasOwn rf k) then
      Operation.remove (path ++ "/" ++ k) :: leftKeyLoop cfg path rf rest
    else
      leftKeyLoop cfg path rf rest

/-- The `toBeAddedHashes` loop of `compareArrayByHash`: one `add` per entry,
value taken from the right element at the first right index bearing the
hash (`rightArr[rightHashes.indexOf(hash)]`, always in range there), the
hash appended to the target list, and the output index advancing. -/
def hashAddLoop (rArr : List JsonValue) (rh : List String) (path : String) :
    Nat → List String → List String → Patch × List String
  | _, target, [] => ([], target)
  | ci, target, hh :: rest =>
    let res := hashAddLoop rArr rh path (ci + 1) (target ++ [hh]) rest
    (Operation.add (path ++ "/" ++ toString ci) (rArr.getD (jsIndexOf rh hh) JsonValue.null)
        :: res.1,
      res.2)

/-- The move-detection loop of `compareArrayByHash`, iterating right-side
indices from the last to the first (`i` counts the indices still to be
processed, so the call with `i = n` processes `n-1, …, 0`).  For each
index, the hash's first position in `rightHashes` is its `targetIndex`
and its position in the shadow list is its `currentIndex`; when they
differ a `(currentIndex, targetIndex)` pair is emitted and the shadow
list is immediately reordered by `moveArrayElement`.  Emitted pairs are
returned in emission order together with the final shadow list; the
caller renders each pair as `move {from: path/cur, path: path/target}`. -/
def hashMoveLoop (rh : List String) : List String → Nat → List (Nat × Nat) × List String
  | target, 0 => ([], target)
  | target, i + 1 =>
    let hash := rh.getD i ""
    let targetIndex := jsIndexOf rh hash
    let currentIndex := jsIndexOf target hash
    if currentIndex ≠ targetIndex then
      let res := hashMoveLoop rh (moveArrayElement target currentIndex targetIndex) i
      ((currentIndex, targetIndex) :: res.1, res.2)
    else
      hashMoveLoop rh target i

/-- Replay a list of `(from, to)` move pairs against a shadow list, applying
`moveArrayElement` for each pair in order. -/
def replayMoves (target : List String) (ps : List (Nat × Nat)) : List String :=
  ps.foldl (fun s ct => moveArrayElement s ct.1 ct.2) target

mutual

/-- `compareObjects` of the source: primitive gate, top-level-array special
case, the one-side-is-an-array `replace` rule, and the two key loops for
object/object comparison.  The first argument after the config is fuel. -/
def compareObjects (cfg : JsonPatchConfig) :
    Nat → String → JsonValue → JsonValue → Except DiffFailure Patch
  | 0, _, _, _ => .error .outOfFuel
  | fuel + 1, path, l, r =>
    if isPrimitiveValue l || isPrimitiveValue r then
      -- `leftJsonValue !== rightJsonValue`: strict equality with at least
      -- one primitive operand is structural equality
      if !(jvBEq l r) then .ok [.replace path r] else .ok []
    else
      match l, r with
      | .arr la, .arr ra =>
        if path == "" then
          -- isArrayAtTop: both sides arrays at the root
          compareArrays cfg fuel la ra ""
        else
          -- one of the values is an array (here: both) and we are not at
          -- the top: `replace` without structural merge
          .ok [.replace path (.arr ra)]
      | .obj lf, .obj rf =>
        match rightKeyLoop cfg fuel path lf rf with
        | .error e => .error e
        | .ok ops => .ok (ops ++ leftKeyLoop cfg path rf lf)
      | _, _ =>
        -- exactly one side is an array: `replace`, no merge across the
        -- array/object boundary
        .ok [.replace path r]

/-- The `for..in rightJsonValue` loop of `compareObjects`: per right key
(in insertion order, subject to the right-side filter) either recurse
into arrays or objects, or emit `add`/`replace`.  Inside this loop
`isArrayAtTop` is always false, so `newPath` is always `path ++ "/" ++ key`. -/
def rightKeyLoop (cfg : JsonPatchConfig) :
    Nat → String → List (String × JsonValue) → List (String × JsonValue) →
      Except DiffFailure Patch
  | 0, _, _, _ => .error .outOfFuel
  | fuel + 1, path, lf, rfRem =>
    match rfRem with
    | [] => .ok []
    | (k, rv) :: rest =>
      if !(keptByFilter cfg k .right path) then
        rightKeyLoop cfg fuel path lf rest
      else
        let newPath := path ++ "/" ++ k
        match objGet lf k, rv with
        | some (.arr lv), .arr rvl =>
          -- both sides hold arrays at this key
          match compareArrays cfg fuel lv rvl newPath with
          | .error e => .error e
          | .ok sub =>
            match rightKeyLoop cfg fuel path lf rest with
            | .error e => .error e
            | .ok ops => .ok (sub ++ ops)
        | leftValue, _ =>
          if isJsonObject rv then
            match leftValue with
            | some lval =>
              if isJsonObject lval then
                match compareObjects cfg fuel newPath lval rv with
                | .error e => .error e
                | .ok sub =>
                  match rightKeyLoop cfg fuel path lf rest with
                  | .error e => .error e
                  | .ok ops => .ok (sub ++ ops)
              else
                -- left has the key but not as an object: replace
                match rightKeyLoop cfg fuel path lf rest with
                | .error e => .error e
                | .ok ops => .ok (.replace newPath rv :: ops)
            | none =>
              match rightKeyLoop cfg fuel path lf rest with
              | .error e => .error e
              | .ok ops => .ok (.add newPath rv :: ops)
          else
            match leftValue with
            | none =>
              -- left lacks the key: add
              match rightKeyLoop cfg fuel path lf rest with
              | .error e => .error e
              | .ok ops => .ok (.add newPath rv :: ops)
            | some lval =>
              -- `leftValue !== rightValue`: `rv` is a primitive here (or an
              -- array with a non-array `lval`, where both notions disagree
              -- on no JSON pair), so structural equality is faithful
              if !(jvBEq lval rv) then
                match rightKeyLoop cfg fuel path lf rest with
                | .error e => .error e
                | .ok ops => .ok (.replace newPath rv :: ops)
              else
                rightKeyLoop cfg fuel path lf rest

/-- `compareArrays` of the source: serialized-equality short circuit, then
strategy dispatch on the presence of `objectHash`. -/
def compareArrays (cfg : JsonPatchConfig) :
    Nat → List JsonValue → List JsonValue → String → Except DiffFailure Patch
  | 0, _, _, _ => .error .outOfFuel
  | fuel + 1, lArr, rArr, path =>
    if jvBEqList lArr rArr then
      -- JSON.stringify(left) === JSON.stringify(right): no comparison needed
      .ok []
    else
      match cfg.objectHash with
      | some _ => compareArrayByHash cfg fuel lArr rArr path
      | none => compareArrayByIndex cfg fuel lArr rArr path 0

/-- `compareArrayByHash` of the source: the callable-hash guard (the only
`throw` of the algorithm), both hash maps, the left matching loop, the
to-be-added loop, the `ignoreMove` early return, and the move loop. -/
def compareArrayByHash (cfg : JsonPatchConfig) :
    Nat → List JsonValue → List JsonValue → String → Except DiffFailure Patch
  | 0, _, _, _ => .error .outOfFuel
  | fuel + 1, lArr, rArr, path =>
    match cfg.objectHash with
    | none => .error (.thrown "No objectHash function provided")
    | some objectHash =>
      let leftHashes := lArr.map (fun v => objectHash v ⟨.left, path⟩)
      let rightHashes := rArr.map (fun v => objectHash v ⟨.right, path⟩)
      match hashLeftLoop cfg fuel rArr rightHashes path 0 (lArr.zip leftHashes) [] with
      | .error e => .error e
      | .ok (ops, target, ci) =>
        let toBeAdded := rightHashes.filter (fun hh => !(target.contains hh))
        let added := hashAddLoop rArr rightHashes path ci target toBeAdded
        if cfg.arrayIgnoreMove then
          .ok (ops ++ added.1)
        else
          let mv := hashMoveLoop rightHashes added.2 rightHashes.length
          .ok (ops ++ added.1 ++
            mv.1.map (fun ct =>
              Operation.move (path ++ "/" ++ toString ct.1) (path ++ "/" ++ toString ct.2)))

/-- The first loop of `compareArrayByHash`, walking the left elements zipped
with their hashes.  A hash found on the right recurses into the differ
against the right element at the first right index bearing that hash
(`rightArr[rightHashes.indexOf(h)]`, in range whenever
`rh.length ≤ rArr.length`) and appends the hash to the matched list; an
unmatched hash yields a `remove` without advancing the output index.
Returns the operations, the matched-hash list and the final output index. -/
def hashLeftLoop (cfg : JsonPatchConfig) :
    Nat → List JsonValue → List String → String → Nat →
      List (JsonValue × String) → List String →
      Except DiffFailure (Patch × List String × Nat)
  | 0, _, _, _, _, _, _ => .error .outOfFuel
  | fuel + 1, rArr, rh, path, ci, lrem, target =>
    match lrem with
    | [] => .ok ([], target, ci)
    | (x, hx) :: rest =>
      match jsFindIndex (fun s => s == hx) rh with
      | some j =>
        match compareObjects cfg fuel (path ++ "/" ++ toString ci) x
            (rArr.getD j JsonValue.null) with
        | .error e => .error e
        | .ok sub =>
          match hashLeftLoop cfg fuel rArr rh path (ci + 1) rest (target ++ [hx]) with
          | .error e => .error e
          | .ok (ops, tfin, cfin) => .ok (sub ++ ops, tfin, cfin)
      | none =>
        match hashLeftLoop cfg fuel rArr rh path ci rest target with
        | .error e => .error e
        | .ok (ops, tfin, cfin) =>
          .ok (.remove (path ++ "/" ++ toString ci) :: ops, tfin, cfin)

/-- `compareArrayByIndex` of the source, as a walk over both arrays with the
running output index `ci` (starting at 0): both present → recurse;
only-right → `add` (index advances); only-left → `remove` (the index
does not advance, so successive removals share a path). -/
def compareArrayByIndex (cfg : JsonPatchConfig) :
    Nat → List JsonValue → List JsonValue → String → Nat → Except DiffFailure Patch
  | 0, _, _, _, _ => .error .outOfFuel
  | fuel + 1, lrem, rrem, path, ci =>
    match lrem, rrem with
    | [], [] => .ok []
    | x :: ls, y :: rs =>
      match compareObjects cfg fuel (path ++ "/" ++ toString ci) x y with
      | .error e => .error e
      | .ok sub =>
        match compareArrayByIndex cfg fuel ls rs path (ci + 1) with
        | .error e => .error e
        | .ok ops => .ok (sub ++ ops)
    | [], y :: rs =>
      match compareArrayByIndex cfg fuel [] rs path (ci + 1) with
      | .error e => .error e
      | .ok ops => .ok (.add (path ++ "/" ++ toString ci) y :: ops)
    | _ :: ls, [] =>
      match compareArrayByIndex cfg fuel ls [] path ci with
      | .error e => .error e
      | .ok ops => .ok (.remove (path ++ "/" ++ toString ci) :: ops)

end

/-- Fuel that provably suffices for the whole recursion (see
`generateJSONPatch_total`). -/
def diffFuel (before after : JsonValue) : Nat :=
  jsonSize before + jsonSize after + 20

/-- `generateJSONPatch(before, after, config)`: run the differ from the root
path.  The fuel is a sufficient bound, so the result is `.ok` exactly
when the source returns normally. -/
def generateJSONPatch (before after : JsonValue)
    (config : JsonPatchConfig := {}) : Except DiffFailure Patch :=
  compareObjects config (diffFuel before after) "" before after

/-- `compareArrays` with its serialized-equality short circuit removed:
direct strategy dispatch.  Used to state the claim that the short
circuit agrees with the full algorithm on equal arrays. -/
def compareArraysNoShortCircuit (cfg : JsonPatchConfig) (fuel : Nat)
    (lArr rArr : List JsonValue) (path : String) : Except DiffFailure Patch :=
  match cfg.objectHash with
  | some _ => compareArrayByHash cfg fuel lArr rArr path
  | none => compareArrayByIndex cfg fuel lArr rArr path 0

/-- The `objectHash` of the spec's examples, `v => v.id`, rendered as the
decimal string of the `id` field (JS compares the resulting hashes only
for equality, so the string rendering is behaviourally equivalent). -/
def hashById : ObjectHash := fun v _ =>
  match v with
  | .obj fields =>
    match objGet fields "id" with
    | some (.num n) => toString n
    | _ => "undefined"
  | _ => "undefined"

mutual

/-- Well-formed JSON value: object keys are unique at every level (JS
objects cannot repeat a key, so exactly the well-formed values are the
images of actual JS values). -/
def wfValue : JsonValue → Bool
  | .null => true
  | .bool _ => true
  | .num _ => true
  | .str _ => true
  | .arr l => wfList l
  | .obj f => wfFields f

/-- All elements of a JSON array are well-formed. -/
def wfList : List JsonValue → Bool
  | [] => true
  | x :: xs => wfValue x && wfList xs

/-- Keys of a JSON object are unique and all its values are well-formed. -/
def wfFields : List (String × JsonValue) → Bool
  | [] => true
  | (k, v) :: rest =>
    !((rest.map Prod.fst).contains k) && wfValue v && wfFields rest

end



/-! ## Size and lookup lemmas -/

theorem jsonSize_pos : ∀ v, 1 ≤ jsonSize v := by
  intro v
  cases v <;> simp [jsonSize]

theorem jsonSizeList_pos : ∀ l, 1 ≤ jsonSizeList l := by
  intro l
  cases l <;> simp [jsonSizeList] <;> omega

theorem jsonSizeFields_pos : ∀ f, 1 ≤ jsonSizeFields f := by
  intro f
  cases f with
  | nil => simp [jsonSizeFields]
  | cons p rest => obtain ⟨k, v⟩ := p; simp [jsonSizeFields]; omega

theorem jsonSize_mem_list {x : JsonValue} :
    ∀ {l : List JsonValue}, x ∈ l → jsonSize x + 2 ≤ jsonSizeList l := by
  intro l hx
  induction l with
  | nil => cases hx
  | cons y ys ih =>
    rcases List.mem_cons.mp hx with h | h
    · subst h
      have := jsonSizeList_pos ys
      simp only [jsonSizeList]
      omega
    · have h1 := ih h
      have h2 := jsonSize_pos y
      simp only [jsonSizeList]
      omega

theorem jsonSize_mem_fields {k : String} {v : JsonValue} :
    ∀ {f : List (String × JsonValue)}, (k, v) ∈ f → jsonSize v + 2 ≤ jsonSizeFields f := by
  intro f hx
  induction f with
  | nil => cases hx
  | cons p rest ih =>
    obtain ⟨k2, v2⟩ := p
    rcases List.mem_cons.mp hx with h | h
    · have hv : v2 = v := by injection h with h1 h2; exact h2.symm
      subst hv
      have := jsonSizeFields_pos rest
      simp only [jsonSizeFields]
      omega
    · have h1 := ih h
      have h2 := jsonSize_pos v2
      simp only [jsonSizeFields]
      omega

theorem getD_mem {α : Type _} :
    ∀ (l : List α) (j : Nat) (d : α), j < l.length → l.getD j d ∈ l := by
  intro l
  induction l with
  | nil => intro j d h; simp at h
  | cons x xs ih =>
    intro j d h
    cases j with
    | zero => simp
    | succ j =>
      simp only [List.getD_cons_succ]
      exact List.mem_cons_of_mem _ (ih j d (by simpa using Nat.lt_of_succ_lt_succ h))

theorem objGet_mem :
    ∀ {f : List (String × JsonValue)} {k : String} {v : JsonValue},
      objGet f k = some v → (k, v) ∈ f := by
  intro f
  induction f with
  | nil => intro k v h; simp [objGet] at h
  | cons p rest ih =>
    intro k v h
    obtain ⟨k2, v2⟩ := p
    rw [objGet] at h
    split at h
    · next heq =>
      have hk : k2 = k := by exact eq_of_beq heq
      have hv : v2 = v := by injection h
      subst hk; subst hv
      exact List.mem_cons_self _ _
    · exact List.mem_cons_of_mem _ (ih h)

theorem jsFindIndex_lt_length {p : String → Bool} :
    ∀ {l : List String} {j : Nat}, jsFindIndex p l = some j → j < l.length := by
  intro l
  induction l with
  | nil => intro j h; simp [jsFindIndex] at h
  | cons s rest ih =>
    intro j h
    rw [jsFindIndex] at h
    split at h
    · injection h with h1
      subst h1
      simp
    · cases hr : jsFindIndex p rest with
      | none => rw [hr] at h; simp at h
      | some j2 =>
        rw [hr] at h
        simp only [Option.map_some'] at h
        injection h with h1
        subst h1
        have := ih hr
        simp only [List.length_cons]
        omega

theorem jsFindIndex_getD {p : String → Bool} :
    ∀ {l : List String} {j : Nat} (d : String),
      jsFindIndex p l = some j → p (l.getD j d) = true := by
  intro l
  induction l with
  | nil => intro j d h; simp [jsFindIndex] at h
  | cons s rest ih =>
    intro j d h
    rw [jsFindIndex] at h
    split at h
    · next hp =>
      injection h with h1
      subst h1
      simpa using hp
    · cases hr : jsFindIndex p rest with
      | none => rw [hr] at h; simp at h
      | some j2 =>
        rw [hr] at h
        simp only [Option.map_some'] at h
        injection h with h1
        subst h1
        rw [List.getD_cons_succ]
        exact ih d hr

theorem jsFindIndex_isSome_of_mem {s : String} :
    ∀ {l : List String}, s ∈ l → (jsFindIndex (fun x => x == s) l).isSome := by
  intro l hs
  induction l with
  | nil => cases hs
  | cons t rest ih =>
    rw [jsFindIndex]
    rcases List.mem_cons.mp hs with h | h
    · subst h; simp
    · split
      · simp
      · have := ih h
        cases hr : jsFindIndex (fun x => x == s) rest with
        | none => rw [hr] at this; simp at this
        | some j => simp


/-! ## Reflexivity of the structural equality -/

mutual

theorem jvBEq_refl : ∀ a, jvBEq a a = true
  | .null => rfl
  | .bool b => by simp [jvBEq]
  | .num n => by simp [jvBEq]
  | .str s => by simp [jvBEq]
  | .arr l => by rw [jvBEq]; exact jvBEqList_refl l
  | .obj f => by rw [jvBEq]; exact jvBEqFields_refl f

theorem jvBEqList_refl : ∀ l, jvBEqList l l = true
  | [] => rfl
  | x :: xs => by rw [jvBEqList]; simp [jvBEq_refl x, jvBEqList_refl xs]

theorem jvBEqFields_refl : ∀ f, jvBEqFields f f = true
  | [] => rfl
  | (k, v) :: rest => by rw [jvBEqFields]; simp [jvBEq_refl v, jvBEqFields_refl rest]

end

/-! ## Unfolding lemmas at successor fuel

The equation lemmas Lean generates for the mutual pack are split per
constructor pattern and carry overlap side conditions; these `rfl`
unfoldings restate each function's body at `fuel + 1` for direct use. -/

theorem compareObjects_succ (cfg : JsonPatchConfig) (fuel : Nat) (path : String)
    (l r : JsonValue) :
    compareObjects cfg (fuel + 1) path l r =
      (if isPrimitiveValue l || isPrimitiveValue r then
        if !(jvBEq l r) then .ok [.replace path r] else .ok []
      else
        match l, r with
        | .arr la, .arr ra =>
          if path == "" then
            compareArrays cfg fuel la ra ""
          else
            .ok [.replace path (.arr ra)]
        | .obj lf, .obj rf =>
          match rightKeyLoop cfg fuel path lf rf with
          | .error e => .error e
          | .ok ops => .ok (ops ++ leftKeyLoop cfg path rf lf)
        | _, _ =>
          .ok [.replace path r]) := rfl

theorem rightKeyLoop_succ (cfg : JsonPatchConfig) (fuel : Nat) (path : String)
    (lf rfRem : List (String × JsonValue)) :
    rightKeyLoop cfg (fuel + 1) path lf rfRem =
      (match rfRem with
      | [] => .ok []
      | (k, rv) :: rest =>
        if !(keptByFilter cfg k .right path) then
          rightKeyLoop cfg fuel path lf rest
        else
          let newPath := path ++ "/" ++ k
          match objGet lf k, rv with
          | some (.arr lv), .arr rvl =>
            match compareArrays cfg fuel lv rvl newPath with
            | .error e => .error e
            | .ok sub =>
              match rightKeyLoop cfg fuel path lf rest with
              | .error e => .error e
              | .ok ops => .ok (sub ++ ops)
          | leftValue, _ =>
            if isJsonObject rv then
              match leftValue with
              | some lval =>
                if isJsonObject lval then
                  match compareObjects cfg fuel newPath lval rv with
                  | .error e => .error e
                  | .ok sub =>
                    match rightKeyLoop cfg fuel path lf rest with
                    | .error e => .error e
                    | .ok ops => .ok (sub ++ ops)
                else
                  match rightKeyLoop cfg fuel path lf rest with
                  | .error e => .error e
                  | .ok ops => .ok (.replace newPath rv :: ops)
              | none =>
                match rightKeyLoop cfg fuel path lf rest with
                | .error e => .error e
                | .ok ops => .ok (.add newPath rv :: ops)
            else
              match leftValue with
              | none =>
                match rightKeyLoop cfg fuel path lf rest with
                | .error e => .error e
                | .ok ops => .ok (.add newPath rv :: ops)
              | some lval =>
                if !(jvBEq lval rv) then
                  match rightKeyLoop cfg fuel path lf rest with
                  | .error e => .error e
                  | .ok ops => .ok (.replace newPath rv :: ops)
                else
                  rightKeyLoop cfg fuel path lf rest) := rfl

theorem compareArrays_succ (cfg : JsonPatchConfig) (fuel : Nat)
    (lArr rArr : List JsonValue) (path : String) :
    compareArrays cfg (fuel + 1) lArr rArr path =
      (if jvBEqList lArr rArr then
        .ok []
      else
        match cfg.objectHash with
        | some _ => compareArrayByHash cfg fuel lArr rArr path
        | none => compareArrayByIndex cfg fuel lArr rArr path 0) := rfl

theorem compareArrayByHash_succ (cfg : JsonPatchConfig) (fuel : Nat)
    (lArr rArr : List JsonValue) (path : String) :
    compareArrayByHash cfg (fuel + 1) lArr rArr path =
      (match cfg.objectHash with
      | none => .error (.thrown "No objectHash function provided")
      | some objectHash =>
        let leftHashes := lArr.map (fun v => objectHash v ⟨.left, path⟩)
        let rightHashes := rArr.map (fun v => objectHash v ⟨.right, path⟩)
        match hashLeftLoop cfg fuel rArr rightHashes path 0 (lArr.zip leftHashes) [] with
        | .error e => .error e
        | .ok (ops, target, ci) =>
          let toBeAdded := rightHashes.filter (fun hh => !(target.contains hh))
          let added := hashAddLoop rArr rightHashes path ci target toBeAdded
          if cfg.arrayIgnoreMove then
            .ok (ops ++ added.1)
          else
            let mv := hashMoveLoop rightHashes added.2 rightHashes.length
            .ok (ops ++ added.1 ++
              mv.1.map (fun ct =>
                Operation.move (path ++ "/" ++ toString ct.1)
                  (path ++ "/" ++ toString ct.2)))) := rfl

theorem hashLeftLoop_succ (cfg : JsonPatchConfig) (fuel : Nat)
    (rArr : List JsonValue) (rh : List String) (path : String) (ci : Nat)
    (lrem : List (JsonValue × String)) (target : List String) :
    hashLeftLoop cfg (fuel + 1) rArr rh path ci lrem target =
      (match lrem with
      | [] => .ok ([], target, ci)
      | (x, hx) :: rest =>
        match jsFindIndex (fun s => s == hx) rh with
        | some j =>
          match compareObjects cfg fuel (path ++ "/" ++ toString ci) x
              (rArr.getD j JsonValue.null) with
          | .error e => .error e
          | .ok sub =>
            match hashLeftLoop cfg fuel rArr rh path (ci + 1) rest (target ++ [hx]) with
            | .error e => .error e
            | .ok (ops, tfin, cfin) => .ok (sub ++ ops, tfin, cfin)
        | none =>
          match hashLeftLoop cfg fuel rArr rh path ci rest target with
          | .error e => .error e
          | .ok (ops, tfin, cfin) =>
            .ok (.remove (path ++ "/" ++ toString ci) :: ops, tfin, cfin)) := rfl

theorem compareArrayByIndex_succ (cfg : JsonPatchConfig) (fuel : Nat)
    (lrem rrem : List JsonValue) (path : String) (ci : Nat) :
    compareArrayByIndex cfg (fuel + 1) lrem rrem path ci =
      (match lrem, rrem with
      | [], [] => .ok []
      | x :: ls, y :: rs =>
        match compareObjects cfg fuel (path ++ "/" ++ toString ci) x y with
        | .error e => .error e
        | .ok sub =>
          match compareArrayByIndex cfg fuel ls rs path (ci + 1) with
          | .error e => .error e
          | .ok ops => .ok (sub ++ ops)
      | [], y :: rs =>
        match compareArrayByIndex cfg fuel [] rs path (ci + 1) with
        | .error e => .error e
        | .ok ops => .ok (.add (path ++ "/" ++ toString ci) y :: ops)
      | _ :: ls, [] =>
        match compareArrayByIndex cfg fuel ls [] path ci with
        | .error e => .error e
        | .ok ops => .ok (.remove (path ++ "/" ++ toString ci) :: ops)) := rfl

/-! ## Fuel sufficiency: the recursion pack never runs out of fuel and
never throws when entered through `compareArrays` with its guard. -/

theorem pack_total : ∀ fuel : Nat,
    (∀ cfg path l r, jsonSize l + jsonSize r + 14 ≤ fuel →
      ∃ p, compareObjects cfg fuel path l r = .ok p)
  ∧ (∀ cfg path lf rfRem, jsonSizeFields lf + jsonSizeFields rfRem + 13 ≤ fuel →
      ∃ p, rightKeyLoop cfg fuel path lf rfRem = .ok p)
  ∧ (∀ cfg l r path, jsonSizeList l + jsonSizeList r + 13 ≤ fuel →
      ∃ p, compareArrays cfg fuel l r path = .ok p)
  ∧ (∀ cfg l r path, cfg.objectHash.isSome = true →
      jsonSizeList l + jsonSizeList r + 12 ≤ fuel →
      ∃ p, compareArrayByHash cfg fuel l r path = .ok p)
  ∧ (∀ cfg rArr rh path ci lrem target, rh.length ≤ rArr.length →
      jsonSizeList (lrem.map Prod.fst) + jsonSizeList rArr + 11 ≤ fuel →
      ∃ res, hashLeftLoop cfg fuel rArr rh path ci lrem target = .ok res)
  ∧ (∀ cfg l r path ci, jsonSizeList l + jsonSizeList r + 11 ≤ fuel →
      ∃ p, compareArrayByIndex cfg fuel l r path ci = .ok p) := by
  intro fuel
  induction fuel with
  | zero =>
    refine ⟨?_, ?_, ?_, ?_, ?_, ?_⟩ <;> intros <;> omega
  | succ fuel ih =>
    obtain ⟨ihco, ihrk, ihca, ihbh, ihhl, ihbi⟩ := ih
    have Tco : ∀ cfg path l r, jsonSize l + jsonSize r + 14 ≤ fuel + 1 →
        ∃ p, compareObjects cfg (fuel + 1) path l r = .ok p := by
      intro cfg path l r hb
      rw [compareObjects_succ]
      by_cases hprim : (isPrimitiveValue l || isPrimitiveValue r) = true
      · rw [if_pos hprim]
        split <;> exact ⟨_, rfl⟩
      · rw [if_neg hprim]
        cases l with
        | arr la =>
          cases r with
          | arr ra =>
            dsimp only
            by_cases hpath : (path == "") = true
            · rw [if_pos hpath]
              simp only [jsonSize] at hb
              exact ihca cfg la ra "" (by omega)
            · rw [if_neg hpath]
              exact ⟨_, rfl⟩
          | obj rf => exact ⟨_, rfl⟩
          | null => exact ⟨_, rfl⟩
          | bool b => exact ⟨_, rfl⟩
          | num n => exact ⟨_, rfl⟩
          | str s => exact ⟨_, rfl⟩
        | obj lf =>
          cases r with
          | obj rf =>
            dsimp only
            simp only [jsonSize] at hb
            obtain ⟨p, hp⟩ := ihrk cfg path lf rf (by omega)
            rw [hp]
            exact ⟨_, rfl⟩
          | arr ra => exact ⟨_, rfl⟩
          | null => exact ⟨_, rfl⟩
          | bool b => exact ⟨_, rfl⟩
          | num n => exact ⟨_, rfl⟩
          | str s => exact ⟨_, rfl⟩
        | null => simp [isPrimitiveValue] at hprim
        | bool b => simp [isPrimitiveValue] at hprim
        | num n => simp [isPrimitiveValue] at hprim
        | str s => simp [isPrimitiveValue] at hprim
    have Trk : ∀ cfg path lf rfRem, jsonSizeFields lf + jsonSizeFields rfRem + 13 ≤ fuel + 1 →
        ∃ p, rightKeyLoop cfg (fuel + 1) path lf rfRem = .ok p := by
      intro cfg path lf rfRem hb
      rw [rightKeyLoop_succ]
      cases rfRem with
      | nil => exact ⟨_, rfl⟩
      | cons hd rest =>
        obtain ⟨k, rv⟩ := hd
        simp only [jsonSizeFields] at hb
        obtain ⟨prest, hprest⟩ : ∃ p, rightKeyLoop cfg fuel path lf rest = .ok p := by
          have h1 := jsonSize_pos rv
          exact ihrk cfg path lf rest (by omega)
        dsimp only
        by_cases hfil : (!(keptByFilter cfg k .right path)) = true
        · rw [if_pos hfil]
          exact ⟨_, hprest⟩
        · rw [if_neg hfil]
          cases hget : objGet lf k with
          | some lval =>
            have hmem := objGet_mem hget
            have hszl : jsonSize lval + 2 ≤ jsonSizeFields lf := jsonSize_mem_fields hmem
            cases rv with
            | arr rvl =>
              cases lval with
              | arr lv =>
                dsimp only
                simp only [jsonSize] at hszl hb
                obtain ⟨psub, hpsub⟩ := ihca cfg lv rvl (path ++ "/" ++ k) (by omega)
                rw [hpsub, hprest]
                exact ⟨_, rfl⟩
              | obj lvf =>
                dsimp only [isJsonObject, jvBEq]
                first
                | exact ⟨_, hprest⟩
                | (rw [hprest]; exact ⟨_, rfl⟩)
                | (split <;> (first | contradiction | exact ⟨_, hprest⟩ | (rw [hprest]; exact ⟨_, rfl⟩) | (split <;> (first | contradiction | exact ⟨_, hprest⟩ | (rw [hprest]; exact ⟨_, rfl⟩)))))
              | null =>
                dsimp only [isJsonObject, jvBEq]
                first
                | exact ⟨_, hprest⟩
                | (rw [hprest]; exact ⟨_, rfl⟩)
                | (split <;> (first | contradiction | exact ⟨_, hprest⟩ | (rw [hprest]; exact ⟨_, rfl⟩) | (split <;> (first | contradiction | exact ⟨_, hprest⟩ | (rw [hprest]; exact ⟨_, rfl⟩)))))
              | bool b =>
                dsimp only [isJsonObject, jvBEq]
                first
                | exact ⟨_, hprest⟩
                | (rw [hprest]; exact ⟨_, rfl⟩)
                | (split <;> (first | contradiction | exact ⟨_, hprest⟩ | (rw [hprest]; exact ⟨_, rfl⟩) | (split <;> (first | contradiction | exact ⟨_, hprest⟩ | (rw [hprest]; exact ⟨_, rfl⟩)))))
              | num n =>
                dsimp only [isJsonObject, jvBEq]
                first
                | exact ⟨_, hprest⟩
                | (rw [hprest]; exact ⟨_, rfl⟩)
                | (split <;> (first | contradiction | exact ⟨_, hprest⟩ | (rw [hprest]; exact ⟨_, rfl⟩) | (split <;> (first | contradiction | exact ⟨_, hprest⟩ | (rw [hprest]; exact ⟨_, rfl⟩)))))
              | str s =>
                dsimp only [isJsonObject, jvBEq]
                first
                | exact ⟨_, hprest⟩
                | (rw [hprest]; exact ⟨_, rfl⟩)
                | (split <;> (first | contradiction | exact ⟨_, hprest⟩ | (rw [hprest]; exact ⟨_, rfl⟩) | (split <;> (first | contradiction | exact ⟨_, hprest⟩ | (rw [hprest]; exact ⟨_, rfl⟩)))))
            | obj rvf =>
              cases lval with
              | obj lvf =>
                dsimp only [isJsonObject]
                simp only [jsonSize] at hszl hb
                obtain ⟨psub, hpsub⟩ :=
                  ihco cfg (path ++ "/" ++ k) (.obj lvf) (.obj rvf)
                    (by simp only [jsonSize]; omega)
                rw [hpsub, hprest]
                exact ⟨_, rfl⟩
              | arr lv =>
                dsimp only [isJsonObject]
                rw [hprest]
                exact ⟨_, rfl⟩
              | null =>
                dsimp only [isJsonObject]
                rw [hprest]
                exact ⟨_, rfl⟩
              | bool b =>
                dsimp only [isJsonObject]
                rw [hprest]
                exact ⟨_, rfl⟩
              | num n =>
                dsimp only [isJsonObject]
                rw [hprest]
                exact ⟨_, rfl⟩
              | str s =>
                dsimp only [isJsonObject]
                rw [hprest]
                exact ⟨_, rfl⟩
            | null =>
              cases lval <;>
                (dsimp only [isJsonObject, jvBEq]
                 first
                 | exact ⟨_, hprest⟩
                 | (rw [hprest]; exact ⟨_, rfl⟩)
                 | (split <;> (first | contradiction | exact ⟨_, hprest⟩ | (rw [hprest]; exact ⟨_, rfl⟩) | (split <;> (first | contradiction | exact ⟨_, hprest⟩ | (rw [hprest]; exact ⟨_, rfl⟩))))))
            | bool b =>
              cases lval <;>
                (dsimp only [isJsonObject, jvBEq]
                 first
                 | exact ⟨_, hprest⟩
                 | (rw [hprest]; exact ⟨_, rfl⟩)
                 | (split <;> (first | contradiction | exact ⟨_, hprest⟩ | (rw [hprest]; exact ⟨_, rfl⟩) | (split <;> (first | contradiction | exact ⟨_, hprest⟩ | (rw [hprest]; exact ⟨_, rfl⟩))))))
            | num n =>
              cases lval <;>
                (dsimp only [isJsonObject, jvBEq]
                 first
                 | exact ⟨_, hprest⟩
                 | (rw [hprest]; exact ⟨_, rfl⟩)
                 | (split <;> (first | contradiction | exact ⟨_, hprest⟩ | (rw [hprest]; exact ⟨_, rfl⟩) | (split <;> (first | contradiction | exact ⟨_, hprest⟩ | (rw [hprest]; exact ⟨_, rfl⟩))))))
            | str s =>
              cases lval <;>
                (dsimp only [isJsonObject, jvBEq]
                 first
                 | exact ⟨_, hprest⟩
                 | (rw [hprest]; exact ⟨_, rfl⟩)
                 | (split <;> (first | contradiction | exact ⟨_, hprest⟩ | (rw [hprest]; exact ⟨_, rfl⟩) | (split <;> (first | contradiction | exact ⟨_, hprest⟩ | (rw [hprest]; exact ⟨_, rfl⟩))))))
          | none =>
            cases rv <;>
              (dsimp only [isJsonObject]
               first
               | exact ⟨_, hprest⟩
               | (rw [hprest]; exact ⟨_, rfl⟩)
               | (split <;> (first | contradiction | exact ⟨_, hprest⟩ | (rw [hprest]; exact ⟨_, rfl⟩) | (split <;> (first | contradiction | exact ⟨_, hprest⟩ | (rw [hprest]; exact ⟨_, rfl⟩))))))
    have Tca : ∀ cfg l r path, jsonSizeList l + jsonSizeList r + 13 ≤ fuel + 1 →
        ∃ p, compareArrays cfg (fuel + 1) l r path = .ok p := by
      intro cfg l r path hb
      rw [compareArrays_succ]
      by_cases heq : (jvBEqList l r) = true
      · rw [if_pos heq]
        exact ⟨_, rfl⟩
      · rw [if_neg heq]
        cases hoh : cfg.objectHash with
        | some h =>
          exact ihbh cfg l r path (by rw [hoh]; rfl) (by omega)
        | none =>
          exact ihbi cfg l r path 0 (by omega)
    have Tbh : ∀ cfg l r path, cfg.objectHash.isSome = true →
        jsonSizeList l + jsonSizeList r + 12 ≤ fuel + 1 →
        ∃ p, compareArrayByHash cfg (fuel + 1) l r path = .ok p := by
      intro cfg l r path hsome hb
      rw [compareArrayByHash_succ]
      cases hoh : cfg.objectHash with
      | none => rw [hoh] at hsome; simp at hsome
      | some h =>
        dsimp only
        have hlen : (r.map (fun v => h v ⟨.right, path⟩)).length ≤ r.length := by
          simp
        have hfst : ((l.zip (l.map (fun v => h v ⟨.left, path⟩))).map Prod.fst) = l := by
          apply List.map_fst_zip
          simp
        obtain ⟨⟨ops, target, ci⟩, hres⟩ :=
          ihhl cfg r (r.map (fun v => h v ⟨.right, path⟩)) path 0
            (l.zip (l.map (fun v => h v ⟨.left, path⟩))) [] hlen
            (by rw [hfst]; omega)
        rw [hres]
        cases hig : cfg.arrayIgnoreMove with
        | true => exact ⟨_, rfl⟩
        | false => exact ⟨_, rfl⟩
    have Thl : ∀ cfg rArr rh path ci lrem target, rh.length ≤ rArr.length →
        jsonSizeList (lrem.map Prod.fst) + jsonSizeList rArr + 11 ≤ fuel + 1 →
        ∃ res, hashLeftLoop cfg (fuel + 1) rArr rh path ci lrem target = .ok res := by
      intro cfg rArr rh path ci lrem target hlen hb
      rw [hashLeftLoop_succ]
      cases lrem with
      | nil => exact ⟨_, rfl⟩
      | cons hd rest =>
        obtain ⟨x, hx⟩ := hd
        simp only [List.map_cons, jsonSizeList] at hb
        dsimp only
        cases hfi : jsFindIndex (fun s => s == hx) rh with
        | some j =>
          have hj : j < rh.length := jsFindIndex_lt_length hfi
          have hy : rArr.getD j JsonValue.null ∈ rArr := getD_mem rArr j _ (by omega)
          have hsy : jsonSize (rArr.getD j JsonValue.null) + 2 ≤ jsonSizeList rArr :=
            jsonSize_mem_list hy
          obtain ⟨psub, hpsub⟩ :=
            ihco cfg (path ++ "/" ++ toString ci) x (rArr.getD j JsonValue.null)
              (by have h1 := jsonSizeList_pos (rest.map Prod.fst); omega)
          obtain ⟨⟨ops, tfin, cfin⟩, hrest⟩ :=
            ihhl cfg rArr rh path (ci + 1) rest (target ++ [hx]) hlen
              (by have := jsonSize_pos x; omega)
          dsimp only
          rw [hpsub, hrest]
          exact ⟨_, rfl⟩
        | none =>
          obtain ⟨⟨ops, tfin, cfin⟩, hrest⟩ :=
            ihhl cfg rArr rh path ci rest target hlen
              (by have := jsonSize_pos x; omega)
          dsimp only
          rw [hrest]
          exact ⟨_, rfl⟩
    have Tbi : ∀ cfg l r path ci, jsonSizeList l + jsonSizeList r + 11 ≤ fuel + 1 →
        ∃ p, compareArrayByIndex cfg (fuel + 1) l r path ci = .ok p := by
      intro cfg l r path ci hb
      rw [compareArrayByIndex_succ]
      cases l with
      | nil =>
        cases r with
        | nil => exact ⟨_, rfl⟩
        | cons y rs =>
          simp only [jsonSizeList] at hb
          obtain ⟨ps, hps⟩ := ihbi cfg [] rs path (ci + 1)
            (by have := jsonSize_pos y; simp only [jsonSizeList]; omega)
          dsimp only
          rw [hps]
          exact ⟨_, rfl⟩
      | cons x ls =>
        cases r with
        | nil =>
          simp only [jsonSizeList] at hb
          obtain ⟨ps, hps⟩ := ihbi cfg ls [] path ci
            (by have := jsonSize_pos x; simp only [jsonSizeList]; omega)
          dsimp only
          rw [hps]
          exact ⟨_, rfl⟩
        | cons y rs =>
          simp only [jsonSizeList] at hb
          obtain ⟨psub, hpsub⟩ :=
            ihco cfg (path ++ "/" ++ toString ci) x y
              (by have h1 := jsonSizeList_pos ls; have h2 := jsonSizeList_pos rs; omega)
          obtain ⟨ps, hps⟩ := ihbi cfg ls rs path (ci + 1) (by omega)
          dsimp only
          rw [hpsub, hps]
          exact ⟨_, rfl⟩
    exact ⟨Tco, Trk, Tca, Tbh, Thl, Tbi⟩

/-- With the fuel `generateJSONPatch` supplies, the differ always returns
normally: neither the fuel artifact nor the missing-hash guard is ever
reached (`compareArrays` selects the hash strategy only when a hash
function is present). -/
theorem generateJSONPatch_total (before after : JsonValue) (cfg : JsonPatchConfig) :
    ∃ p, generateJSONPatch before after cfg = .ok p :=
  (pack_total (diffFuel before after)).1 cfg "" before after
    (by unfold diffFuel; omega)

/-- Entering `compareArrayByHash` without a hash function throws the
configuration error (the `typeof objectHash !== 'function'` guard). -/
theorem compareArrayByHash_noHash (cfg : JsonPatchConfig) (fuel : Nat)
    (lArr rArr : List JsonValue) (path : String)
    (hnone : cfg.objectHash = none) (hfuel : 1 ≤ fuel) :
    compareArrayByHash cfg fuel lArr rArr path =
      .error (.thrown "No objectHash function provided") := by
  cases fuel with
  | zero => omega
  | succ fuel =>
    rw [compareArrayByHash_succ, hnone]

/-! ## Claim theorems -/

/-- **C1** (confirmed): with `objectHash = v => v.id`, diffing
`[{id:1},{id:2}]` against `[{id:2},{id:1}]` yields exactly one operation,
a `move` repositioning one element — zero add/remove/replace. -/
theorem c1_hash_move_detection :
    generateJSONPatch
      (.arr [.obj [("id", .num 1)], .obj [("id", .num 2)]])
      (.arr [.obj [("id", .num 2)], .obj [("id", .num 1)]])
      { objectHash := some hashById } =
      .ok [.move "/0" "/1"] := rfl

/-- **C2 counterexample**: `diff([1,2,3], [1,3], {})` does not consist of a
single remove operation: the code emits two operations, a `replace` at
`/1` (value 3) followed by a `remove` at `/2`. -/
theorem c2_counterexample :
    generateJSONPatch (.arr [.num 1, .num 2, .num 3]) (.arr [.num 1, .num 3]) {} =
      .ok [.replace "/1" (.num 3), .remove "/2"] ∧
    ([Operation.replace "/1" (.num 3), Operation.remove "/2"] : Patch).length ≠ 1 :=
  ⟨rfl, by decide⟩

/-- **C2 amended**: index-by-index comparison of `[1,2,3]` and `[1,3]`
detects the difference at position 1 and emits `replace /1` (value 3),
followed by a single `remove` at `/2` — and no move operation. -/
theorem c2_amended :
    generateJSONPatch (.arr [.num 1, .num 2, .num 3]) (.arr [.num 1, .num 3]) {} =
      .ok [.replace "/1" (.num 3), .remove "/2"] := rfl

/-- **C5** (confirmed): `generateJSONPatch` is total — for every pair of
inputs and every config it returns normally; and the single error of the
algorithm, `Error('No objectHash function provided')`, is raised exactly
when hash-based array comparison is entered without a usable hash
function. -/
theorem c5_error_handling :
    (∀ before after cfg, ∃ p, generateJSONPatch before after cfg = .ok p) ∧
    (∀ cfg fuel lArr rArr path, cfg.objectHash = none → 1 ≤ fuel →
      compareArrayByHash cfg fuel lArr rArr path =
        .error (.thrown "No objectHash function provided")) :=
  ⟨fun before after cfg => generateJSONPatch_total before after cfg,
   fun cfg fuel lArr rArr path hnone hfuel =>
     compareArrayByHash_noHash cfg fuel lArr rArr path hnone hfuel⟩

/-- Witness for **C5** at concrete inputs. -/
theorem c5_error_handling_witness :
    (∃ p, generateJSONPatch (.num 1) (.num 2) {} = .ok p) ∧
    compareArrayByHash {} 1 [] [] "" =
      .error (.thrown "No objectHash function provided") :=
  ⟨c5_error_handling.1 (.num 1) (.num 2) {},
   c5_error_handling.2 {} 1 [] [] "" rfl (by decide)⟩

/-- **C6** (confirmed): the same reordered-array inputs as C1 with the
ignore-move flag set produce zero operations: elements are matched by
hash, nothing structural changes, and move emission is suppressed. -/
theorem c6_ignore_move_suppression :
    generateJSONPatch
      (.arr [.obj [("id", .num 1)], .obj [("id", .num 2)]])
      (.arr [.obj [("id", .num 2)], .obj [("id", .num 1)]])
      { objectHash := some hashById, arrayIgnoreMove := true } =
      .ok [] := rfl

/-- **C7** (confirmed): `diff({a:1,b:2}, {b:3,c:4}, {})` gives
`replace /b` (value 3), then `add /c` (value 4), then `remove /a`: the
right-key pass in right insertion order precedes the left-only removal. -/
theorem c7_object_ops_order :
    generateJSONPatch
      (.obj [("a", .num 1), ("b", .num 2)])
      (.obj [("b", .num 3), ("c", .num 4)]) {} =
      .ok [.replace "/b" (.num 3), .add "/c" (.num 4), .remove "/a"] := rfl

/-! ## Diffing a well-formed value against itself -/

theorem contains_of_mem {s : String} :
    ∀ {l : List String}, s ∈ l → l.contains s = true := by
  intro l h
  induction l with
  | nil => cases h
  | cons t rest ih =>
    rcases List.mem_cons.mp h with he | hm
    · subst he
      rw [List.contains_cons]
      simp
    · rw [List.contains_cons, ih hm, Bool.or_true]

theorem objGet_isSome_of_mem {k : String} {v : JsonValue} :
    ∀ {f : List (String × JsonValue)}, (k, v) ∈ f → (objGet f k).isSome = true := by
  intro f
  induction f with
  | nil => intro h; cases h
  | cons p rest ih =>
    intro h
    obtain ⟨k2, v2⟩ := p
    rw [objGet]
    split
    · rfl
    · next hne =>
      rcases List.mem_cons.mp h with he | hm
      · injection he with h1 h2; subst h1; simp at hne
      · exact ih hm

theorem wfFields_cons {k : String} {v : JsonValue} {rest : List (String × JsonValue)} :
    wfFields ((k, v) :: rest) = true →
    (rest.map Prod.fst).contains k = false ∧ wfValue v = true ∧ wfFields rest = true := by
  intro h
  rw [wfFields] at h
  simp only [Bool.and_eq_true, Bool.not_eq_true'] at h
  exact ⟨h.1.1, h.1.2, h.2⟩

theorem wfValue_of_mem_fields {k : String} {v : JsonValue} :
    ∀ {f : List (String × JsonValue)}, wfFields f = true → (k, v) ∈ f → wfValue v = true := by
  intro f
  induction f with
  | nil => intro _ h; cases h
  | cons p rest ih =>
    intro hwf h
    obtain ⟨k2, v2⟩ := p
    obtain ⟨_, hv2, hrest⟩ := wfFields_cons hwf
    rcases List.mem_cons.mp h with he | hm
    · injection he with h1 h2; subst h2; exact hv2
    · exact ih hrest hm

theorem objGet_self_of_wf {k : String} {v : JsonValue} :
    ∀ {f : List (String × JsonValue)}, wfFields f = true → (k, v) ∈ f →
      objGet f k = some v := by
  intro f
  induction f with
  | nil => intro _ h; cases h
  | cons p rest ih =>
    intro hwf h
    obtain ⟨k2, v2⟩ := p
    obtain ⟨hnc, _, hrest⟩ := wfFields_cons hwf
    rw [objGet]
    split
    · next heq =>
      have hk : k2 = k := eq_of_beq heq
      rcases List.mem_cons.mp h with he | hm
      · injection he with h1 h2; subst h2; rfl
      · exfalso
        rw [hk] at hnc
        have hkmem : k ∈ rest.map Prod.fst := List.mem_map_of_mem Prod.fst hm
        rw [contains_of_mem hkmem] at hnc
        exact absurd hnc (by simp)
    · next hne =>
      rcases List.mem_cons.mp h with he | hm
      · injection he with h1 h2; subst h1; simp at hne
      · exact ih hrest hm

theorem compareArrays_self (cfg : JsonPatchConfig) (fuel : Nat)
    (l : List JsonValue) (path : String) (hfuel : 1 ≤ fuel) :
    compareArrays cfg fuel l l path = .ok [] := by
  cases fuel with
  | zero => omega
  | succ fuel =>
    rw [compareArrays_succ, if_pos (jvBEqList_refl l)]

theorem leftKeyLoop_no_removes (cfg : JsonPatchConfig) (path : String)
    (rf : List (String × JsonValue)) :
    ∀ lfRem, (∀ k v, (k, v) ∈ lfRem → objHasOwn rf k = true) →
      leftKeyLoop cfg path rf lfRem = [] := by
  intro lfRem
  induction lfRem with
  | nil => intro _; rfl
  | cons p rest ih =>
    intro h
    obtain ⟨k, v⟩ := p
    rw [leftKeyLoop]
    have hk : objHasOwn rf k = true := h k v (List.mem_cons_self _ _)
    have hrest := ih (fun k2 v2 hm => h k2 v2 (List.mem_cons_of_mem _ hm))
    split
    · exact hrest
    · rw [hk]
      simp only [Bool.not_true]
      rw [if_neg (by simp)]
      exact hrest

theorem self_diff : ∀ fuel : Nat,
    (∀ cfg path lf, wfFields lf = true → 2 * jsonSizeFields lf + 16 ≤ fuel →
      compareObjects cfg fuel path (.obj lf) (.obj lf) = .ok [])
  ∧ (∀ cfg path lf rfRem, wfFields lf = true → (∀ q ∈ rfRem, q ∈ lf) →
      jsonSizeFields lf + jsonSizeFields rfRem + 13 ≤ fuel →
      rightKeyLoop cfg fuel path lf rfRem = .ok []) := by
  intro fuel
  induction fuel with
  | zero => constructor <;> intros <;> omega
  | succ fuel ih =>
    obtain ⟨ihco, ihrk⟩ := ih
    have Hco : ∀ cfg path lf, wfFields lf = true → 2 * jsonSizeFields lf + 16 ≤ fuel + 1 →
        compareObjects cfg (fuel + 1) path (.obj lf) (.obj lf) = .ok [] := by
      intro cfg path lf hwf hb
      rw [compareObjects_succ]
      rw [if_neg (by simp [isPrimitiveValue])]
      dsimp only
      rw [ihrk cfg path lf lf hwf (fun q hq => hq) (by omega)]
      rw [leftKeyLoop_no_removes cfg path lf lf
        (fun k v hm => by rw [objHasOwn]; exact objGet_isSome_of_mem hm)]
      rfl
    have Hrk : ∀ cfg path lf rfRem, wfFields lf = true → (∀ q ∈ rfRem, q ∈ lf) →
        jsonSizeFields lf + jsonSizeFields rfRem + 13 ≤ fuel + 1 →
        rightKeyLoop cfg (fuel + 1) path lf rfRem = .ok [] := by
      intro cfg path lf rfRem hwf hsub hb
      rw [rightKeyLoop_succ]
      cases rfRem with
      | nil => rfl
      | cons hd rest =>
        obtain ⟨k, rv⟩ := hd
        have hmem : (k, rv) ∈ lf := hsub _ (List.mem_cons_self _ _)
        have hget : objGet lf k = some rv := objGet_self_of_wf hwf hmem
        have hszv : jsonSize rv + 2 ≤ jsonSizeFields lf := jsonSize_mem_fields hmem
        simp only [jsonSizeFields] at hb
        have hrest : rightKeyLoop cfg fuel path lf rest = .ok [] :=
          ihrk cfg path lf rest hwf (fun q hq => hsub q (List.mem_cons_of_mem _ hq))
            (by have := jsonSize_pos rv; omega)
        dsimp only
        split
        · exact hrest
        · rw [hget]
          cases rv with
          | arr rvl =>
            dsimp only
            rw [compareArrays_self cfg fuel rvl (path ++ "/" ++ k) (by omega), hrest]
            rfl
          | obj rvf =>
            dsimp only [isJsonObject]
            rw [if_pos rfl]
            have hwfv : wfValue (.obj rvf) = true := wfValue_of_mem_fields hwf hmem
            rw [wfValue] at hwfv
            simp only [jsonSize] at hszv hb
            rw [ihco cfg (path ++ "/" ++ k) rvf hwfv (by omega), hrest]
            rfl
          | null =>
            dsimp only [isJsonObject]
            rw [if_neg (by simp), jvBEq_refl]
            rw [if_neg (by simp)]
            exact hrest
          | bool b =>
            dsimp only [isJsonObject]
            rw [if_neg (by simp), jvBEq_refl]
            rw [if_neg (by simp)]
            exact hrest
          | num n =>
            dsimp only [isJsonObject]
            rw [if_neg (by simp), jvBEq_refl]
            rw [if_neg (by simp)]
            exact hrest
          | str s =>
            dsimp only [isJsonObject]
            rw [if_neg (by simp), jvBEq_refl]
            rw [if_neg (by simp)]
            exact hrest
    exact ⟨Hco, Hrk⟩

theorem compareObjects_self_root (cfg : JsonPatchConfig) (fuel : Nat)
    (a : JsonValue) (hwf : wfValue a = true) (hb : 2 * jsonSize a + 18 ≤ fuel) :
    compareObjects cfg fuel "" a a = .ok [] := by
  cases fuel with
  | zero => omega
  | succ fuel =>
    rw [compareObjects_succ]
    cases a with
    | null => rfl
    | bool b => simp [isPrimitiveValue, jvBEq_refl]
    | num n => simp [isPrimitiveValue, jvBEq_refl]
    | str s => simp [isPrimitiveValue, jvBEq_refl]
    | arr l =>
      rw [if_neg (by simp [isPrimitiveValue])]
      dsimp only
      rw [if_pos (by rfl)]
      exact compareArrays_self cfg fuel l "" (by omega)
    | obj lf =>
      have := (self_diff (fuel + 1)).1 cfg "" lf (by rw [wfValue] at hwf; exact hwf)
        (by simp only [jsonSize] at hb; omega)
      rw [compareObjects_succ] at this
      exact this

/-- **C3** (confirmed): for every well-formed JSON value `a` (well-formed:
object keys unique at every level, as for every actual JS value) and
every config, `generateJSONPatch a a cfg` is the empty patch. -/
theorem c3_equality_gate (a : JsonValue) (cfg : JsonPatchConfig)
    (hwf : wfValue a = true) :
    generateJSONPatch a a cfg = .ok [] :=
  compareObjects_self_root cfg (diffFuel a a) a hwf (by unfold diffFuel; omega)

/-- Witness for **C3** at a concrete value and config. -/
theorem c3_equality_gate_witness :
    generateJSONPatch (.obj [("a", .num 1), ("b", .arr [.num 2, .null])])
      (.obj [("a", .num 1), ("b", .arr [.num 2, .null])]) {} = .ok [] :=
  c3_equality_gate (.obj [("a", .num 1), ("b", .arr [.num 2, .null])]) {} (by decide)

/-! ## The move batch: emission order and shadow-array semantics -/

theorem replayMoves_nil (t : List String) : replayMoves t [] = t := rfl

theorem replayMoves_cons (t : List String) (ct : Nat × Nat) (ps : List (Nat × Nat)) :
    replayMoves t (ct :: ps) = replayMoves (moveArrayElement t ct.1 ct.2) ps := rfl

theorem jsIndexOf_getD {s : String} {l : List String} (h : s ∈ l) (d : String) :
    l.getD (jsIndexOf l s) d = s := by
  have hs := jsFindIndex_isSome_of_mem h
  cases hf : jsFindIndex (fun x => x == s) l with
  | none => rw [hf] at hs; simp at hs
  | some j =>
    rw [jsIndexOf, hf]
    exact eq_of_beq (jsFindIndex_getD d hf)

theorem getD_mem_of_lt {l : List String} {i : Nat} (h : i < l.length) (d : String) :
    l.getD i d ∈ l := getD_mem l i d h

theorem hashMoveLoop_succ (rh : List String) (target : List String) (i : Nat) :
    hashMoveLoop rh target (i + 1) =
      (let hash := rh.getD i ""
       let targetIndex := jsIndexOf rh hash
       let currentIndex := jsIndexOf target hash
       if currentIndex ≠ targetIndex then
         let res := hashMoveLoop rh (moveArrayElement target currentIndex targetIndex) i
         ((currentIndex, targetIndex) :: res.1, res.2)
       else
         hashMoveLoop rh target i) := rfl

/-- The final shadow list of the move loop is obtained by replaying the
emitted `(from, to)` pairs, in emission order, against the initial shadow
list: the loop mutates its shadow immediately after each emission. -/
theorem hashMoveLoop_replay (rh : List String) :
    ∀ (i : Nat) (target : List String),
      (hashMoveLoop rh target i).2 = replayMoves target (hashMoveLoop rh target i).1 := by
  intro i
  induction i with
  | zero => intro t; rfl
  | succ i ih =>
    intro t
    rw [hashMoveLoop]
    dsimp only
    split
    · dsimp only
      rw [replayMoves_cons]
      exact ih _
    · exact ih t

/-- Every `(from, to)` pair the move loop emits satisfies: `to` is the first
index of the moved hash in `rightHashes`, and `from` is the index of that
hash in the shadow list obtained by replaying all previously emitted
pairs — i.e. each move's source refers to the state after the earlier
moves of the same batch. -/
theorem hashMoveLoop_from_spec (rh : List String) :
    ∀ (i : Nat) (target : List String), i ≤ rh.length →
      ∀ kk, kk < (hashMoveLoop rh target i).1.length →
        (((hashMoveLoop rh target i).1.getD kk (0, 0)).1 =
            jsIndexOf (replayMoves target ((hashMoveLoop rh target i).1.take kk))
              (rh.getD (((hashMoveLoop rh target i).1.getD kk (0, 0)).2) "")) ∧
        ((hashMoveLoop rh target i).1.getD kk (0, 0)).2 =
            jsIndexOf rh (rh.getD (((hashMoveLoop rh target i).1.getD kk (0, 0)).2) "") := by
  intro i
  induction i with
  | zero => intro t _ kk hkk; simp [hashMoveLoop] at hkk
  | succ i ih =>
    intro t hi kk hkk
    have hmem : rh.getD i "" ∈ rh := getD_mem_of_lt (by omega) ""
    have hgd : rh.getD (jsIndexOf rh (rh.getD i "")) "" = rh.getD i "" :=
      jsIndexOf_getD hmem ""
    rw [hashMoveLoop_succ] at hkk ⊢
    dsimp only at hkk ⊢
    by_cases hne : jsIndexOf t (rh.getD i "") ≠ jsIndexOf rh (rh.getD i "")
    · rw [if_pos hne] at hkk ⊢
      cases kk with
      | zero =>
        simp only [List.getD_cons_zero, List.take_zero, replayMoves_nil]
        rw [hgd]
        exact ⟨rfl, rfl⟩
      | succ kk =>
        simp only [List.getD_cons_succ, List.take_succ_cons]
        rw [replayMoves_cons]
        exact ih _ (by omega) kk (by simpa using hkk)
    · rw [if_neg hne] at hkk ⊢
      exact ih t (by omega) kk hkk

/-- Every operation produced by the add loop is an `add`. -/
theorem hashAddLoop_all_add (rArr : List JsonValue) (rh : List String) (path : String) :
    ∀ (toAdd : List String) (ci : Nat) (target : List String) (op : Operation),
      op ∈ (hashAddLoop rArr rh path ci target toAdd).1 → ∃ q v, op = .add q v := by
  intro toAdd
  induction toAdd with
  | nil => intro ci target op h; simp [hashAddLoop] at h
  | cons hh rest ih =>
    intro ci target op h
    rw [hashAddLoop] at h
    dsimp only at h
    rcases List.mem_cons.mp h with he | hm
    · exact ⟨_, _, he⟩
    · exact ih (ci + 1) (target ++ [hh]) op hm

/-- The add loop emits one `add` per entry of the to-be-added list, with the
path advancing from the running output index and the value taken from
the right element at the first right index bearing that entry's hash. -/
theorem hashAddLoop_ops_spec (rArr : List JsonValue) (rh : List String) (path : String) :
    ∀ (toAdd : List String) (ci : Nat) (target : List String),
      (hashAddLoop rArr rh path ci target toAdd).1.length = toAdd.length ∧
      (∀ idx, idx < toAdd.length →
        (hashAddLoop rArr rh path ci target toAdd).1.getD idx (.remove "") =
          .add (path ++ "/" ++ toString (ci + idx))
            (rArr.getD (jsIndexOf rh (toAdd.getD idx "")) JsonValue.null)) := by
  intro toAdd
  induction toAdd with
  | nil =>
    intro ci target
    exact ⟨rfl, fun idx h => by simp at h⟩
  | cons hh rest ih =>
    intro ci target
    rw [hashAddLoop]
    dsimp only
    constructor
    · simp [(ih (ci + 1) (target ++ [hh])).1]
    · intro idx hidx
      cases idx with
      | zero => simp
      | succ idx =>
        simp only [List.getD_cons_succ]
        have hrec := (ih (ci + 1) (target ++ [hh])).2 idx (by simpa using hidx)
        rw [hrec]
        have harith : ci + 1 + idx = ci + (idx + 1) := by omega
        rw [harith]

/-- The add loop appends the to-be-added hashes to the matched-hash list. -/
theorem hashAddLoop_target (rArr : List JsonValue) (rh : List String) (path : String) :
    ∀ (toAdd : List String) (ci : Nat) (target : List String),
      (hashAddLoop rArr rh path ci target toAdd).2 = target ++ toAdd := by
  intro toAdd
  induction toAdd with
  | nil => intro ci target; simp [hashAddLoop]
  | cons hh rest ih =>
    intro ci target
    rw [hashAddLoop]
    dsimp only
    rw [ih (ci + 1) (target ++ [hh])]
    simp

theorem jsFindIndex_min {p : String → Bool} (d : String) :
    ∀ {l : List String} {j : Nat}, jsFindIndex p l = some j →
      ∀ i, i < j → p (l.getD i d) = false := by
  intro l
  induction l with
  | nil => intro j h; simp [jsFindIndex] at h
  | cons s rest ih =>
    intro j h i hij
    rw [jsFindIndex] at h
    split at h
    · injection h with h1; omega
    · next hps =>
      cases hr : jsFindIndex p rest with
      | none => rw [hr] at h; simp at h
      | some j2 =>
        rw [hr] at h
        simp only [Option.map_some'] at h
        injection h with h1
        subst h1
        cases i with
        | zero =>
          simp only [List.getD_cons_zero]
          exact Bool.not_eq_true _ ▸ Bool.of_not_eq_true hps
        | succ i =>
          rw [List.getD_cons_succ]
          exact ih hr i (by omega)

/-! ## Named forms of the `compareArrayByHash` locals, for stating the
move-batch properties: `leftHashes`, `rightHashes` and `toBeAddedHashes`
of the source. -/

/-- The `leftHashes` local of `compareArrayByHash`. -/
def leftHashesOf (h : ObjectHash) (lArr : List JsonValue) (path : String) : List String :=
  lArr.map (fun v => h v ⟨.left, path⟩)

/-- The `rightHashes` local of `compareArrayByHash`. -/
def rightHashesOf (h : ObjectHash) (rArr : List JsonValue) (path : String) : List String :=
  rArr.map (fun v => h v ⟨.right, path⟩)

/-- The `toBeAddedHashes` local of `compareArrayByHash`. -/
def toBeAddedOf (rh target : List String) : List String :=
  rh.filter (fun hh => !(target.contains hh))

/-- **C4** (confirmed): within one hash-strategy array reconciliation, the
successful output decomposes as the left-loop operations, then the adds,
then — last — the move batch, whose rendered operations are all `move`s,
so every add/remove/replace of this array's subtree precedes the batch
(which is generated iterating right-side target indices from the last to
the first: `hashMoveLoop` is entered at `rightHashes.length`).  The
loop's final shadow list equals the replay of the emitted `(from, to)`
pairs on the post-add/remove shadow list, and each emitted pair's `from`
is the index of the moved hash in the shadow state left by the
previously emitted moves — the shadow list being mutated by
`moveArrayElement` immediately after each emission. -/
theorem c4_move_batch (cfg : JsonPatchConfig) (h : ObjectHash) (fuel : Nat)
    (lArr rArr : List JsonValue) (path : String) (out : Patch)
    (hsome : cfg.objectHash = some h)
    (hmv : cfg.arrayIgnoreMove = false)
    (hok : compareArrayByHash cfg (fuel + 1) lArr rArr path = .ok out) :
    ∃ ops target ci,
      hashLeftLoop cfg fuel rArr (rightHashesOf h rArr path) path 0
        (lArr.zip (leftHashesOf h lArr path)) [] = .ok (ops, target, ci) ∧
      (let rh := rightHashesOf h rArr path
       let added := hashAddLoop rArr rh path ci target (toBeAddedOf rh target)
       let mv := hashMoveLoop rh added.2 rh.length
       let moves := mv.1.map (fun ct =>
         Operation.move (path ++ "/" ++ toString ct.1) (path ++ "/" ++ toString ct.2))
       out = ops ++ added.1 ++ moves ∧
       (∀ op ∈ added.1, ∃ q v, op = .add q v) ∧
       (∀ op ∈ moves, ∃ f q, op = .move f q) ∧
       mv.2 = replayMoves added.2 mv.1 ∧
       (∀ kk, kk < mv.1.length →
         ((mv.1.getD kk (0, 0)).1 =
            jsIndexOf (replayMoves added.2 (mv.1.take kk))
              (rh.getD ((mv.1.getD kk (0, 0)).2) "")) ∧
         (mv.1.getD kk (0, 0)).2 =
            jsIndexOf rh (rh.getD ((mv.1.getD kk (0, 0)).2) ""))) := by
  rw [compareArrayByHash_succ, hsome] at hok
  dsimp only at hok
  cases hres : hashLeftLoop cfg fuel rArr (rArr.map fun v => h v ⟨.right, path⟩) path 0
      (lArr.zip (lArr.map fun v => h v ⟨.left, path⟩)) [] with
  | error e =>
    rw [hres] at hok
    exact absurd hok (by simp)
  | ok res =>
    obtain ⟨ops, target, ci⟩ := res
    rw [hres] at hok
    dsimp only at hok
    rw [hmv] at hok
    rw [if_neg (by simp)] at hok
    injection hok with hout
    refine ⟨ops, target, ci, ?_, ?_⟩
    · exact hres
    · dsimp only
      refine ⟨?_, ?_, ?_, ?_, ?_⟩
      · exact hout.symm
      · intro op hop
        exact hashAddLoop_all_add rArr _ path _ ci target op hop
      · intro op hop
        obtain ⟨ct, _, heq⟩ := List.mem_map.mp hop
        exact ⟨_, _, heq.symm⟩
      · exact hashMoveLoop_replay _ _ _
      · intro kk hkk
        exact hashMoveLoop_from_spec _ _ _ (le_refl _) kk hkk

/-- Witness for **C4** at the reordered two-element example. -/
theorem c4_move_batch_witness :
    ∃ ops target ci,
      hashLeftLoop { objectHash := some hashById } 30
        [JsonValue.obj [("id", .num 2)], JsonValue.obj [("id", .num 1)]]
        (rightHashesOf hashById
          [JsonValue.obj [("id", .num 2)], JsonValue.obj [("id", .num 1)]] "") "" 0
        (([JsonValue.obj [("id", .num 1)], JsonValue.obj [("id", .num 2)]] :
            List JsonValue).zip
          (leftHashesOf hashById
            [JsonValue.obj [("id", .num 1)], JsonValue.obj [("id", .num 2)]] "")) []
        = .ok (ops, target, ci) ∧
      (let rh := rightHashesOf hashById
        [JsonValue.obj [("id", .num 2)], JsonValue.obj [("id", .num 1)]] ""
       let added := hashAddLoop
         [JsonValue.obj [("id", .num 2)], JsonValue.obj [("id", .num 1)]] rh "" ci target
         (toBeAddedOf rh target)
       let mv := hashMoveLoop rh added.2 rh.length
       let moves := mv.1.map (fun ct =>
         Operation.move ("" ++ "/" ++ toString ct.1) ("" ++ "/" ++ toString ct.2))
       ([Operation.move "/0" "/1"] : Patch) = ops ++ added.1 ++ moves ∧
       (∀ op ∈ added.1, ∃ q v, op = .add q v) ∧
       (∀ op ∈ moves, ∃ f q, op = .move f q) ∧
       mv.2 = replayMoves added.2 mv.1 ∧
       (∀ kk, kk < mv.1.length →
         ((mv.1.getD kk (0, 0)).1 =
            jsIndexOf (replayMoves added.2 (mv.1.take kk))
              (rh.getD ((mv.1.getD kk (0, 0)).2) "")) ∧
         (mv.1.getD kk (0, 0)).2 =
            jsIndexOf rh (rh.getD ((mv.1.getD kk (0, 0)).2) ""))) :=
  c4_move_batch { objectHash := some hashById } hashById 30
    [JsonValue.obj [("id", .num 1)], JsonValue.obj [("id", .num 2)]]
    [JsonValue.obj [("id", .num 2)], JsonValue.obj [("id", .num 1)]] ""
    [Operation.move "/0" "/1"] rfl rfl rfl

/-- **C10 counterexample**: with `objectHash = v => v.id`, diffing `[]`
against `[{id:1},{id:1}]` emits TWO `add` operations although the right
side carries a single distinct hash (`rightHashes = ["1","1"]`) — the
to-be-added list keeps one entry per unmatched occurrence, not per
distinct hash. -/
theorem c10_counterexample :
    generateJSONPatch (.arr [])
      (.arr [.obj [("id", .num 1)], .obj [("id", .num 1)]])
      { objectHash := some hashById } =
      .ok [.add "/0" (.obj [("id", .num 1)]), .add "/1" (.obj [("id", .num 1)])] ∧
    rightHashesOf hashById
      [JsonValue.obj [("id", .num 1)], JsonValue.obj [("id", .num 1)]] "" = ["1", "1"] :=
  ⟨rfl, rfl⟩

/-- **C10 amended**: matching is by first occurrence — the lookup the left
loop performs for each left element (`jsFindIndex`, the embedding of
`rightHashes.indexOf`) returns the first right index bearing the hash,
so all left duplicates of a hash are compared against the same right
element; and the add loop emits one `add` per entry of the to-be-added
list (so a duplicated unmatched hash yields several adds), each with its
value taken from the right element at the first right index bearing that
hash (`rightArr[rightHashes.indexOf(hash)]`). -/
theorem c10_first_occurrence_matching :
    (∀ (rh : List String) (hx : String) (j : Nat) (d : String),
      jsFindIndex (fun s => s == hx) rh = some j →
      rh.getD j d = hx ∧ ∀ i, i < j → ¬(rh.getD i d = hx)) ∧
    (∀ (rArr : List JsonValue) (rh : List String) (path : String)
        (toAdd : List String) (ci : Nat) (target : List String),
      (hashAddLoop rArr rh path ci target toAdd).1.length = toAdd.length ∧
      (∀ idx, idx < toAdd.length →
        (hashAddLoop rArr rh path ci target toAdd).1.getD idx (.remove "") =
          .add (path ++ "/" ++ toString (ci + idx))
            (rArr.getD (jsIndexOf rh (toAdd.getD idx "")) JsonValue.null))) := by
  constructor
  · intro rh hx j d hfi
    refine ⟨eq_of_beq (jsFindIndex_getD d hfi), ?_⟩
    intro i hij heq
    have hmin := jsFindIndex_min d hfi i hij
    rw [heq] at hmin
    simp at hmin
  · intro rArr rh path toAdd ci target
    exact hashAddLoop_ops_spec rArr rh path toAdd ci target

/-- Witness for **C10** at concrete lists: the first right index bearing
hash `"b"` in `["a","b","b"]` is 1, and the add loop on a duplicated
to-be-added hash emits one add per occurrence. -/
theorem c10_first_occurrence_matching_witness :
    ((["a", "b", "b"] : List String).getD 1 "" = "b" ∧
      ∀ i, i < 1 → ¬((["a", "b", "b"] : List String).getD i "" = "b")) ∧
    ((hashAddLoop [JsonValue.num 5] ["h", "h"] "" 0 [] ["h", "h"]).1.length =
        (["h", "h"] : List String).length ∧
      ∀ idx, idx < (["h", "h"] : List String).length →
        (hashAddLoop [JsonValue.num 5] ["h", "h"] "" 0 [] ["h", "h"]).1.getD idx
            (.remove "") =
          .add ("" ++ "/" ++ toString (0 + idx))
            (([JsonValue.num 5] : List JsonValue).getD
              (jsIndexOf ["h", "h"] ((["h", "h"] : List String).getD idx ""))
              JsonValue.null)) :=
  ⟨c10_first_occurrence_matching.1 ["a", "b", "b"] "b" 1 "" rfl,
   c10_first_occurrence_matching.2 [JsonValue.num 5] ["h", "h"] "" ["h", "h"] 0 []⟩

/-! ## The short circuit of `compareArrays` versus the full algorithm -/

theorem compareObjects_self_nonarr (cfg : JsonPatchConfig) (fuel : Nat) (path : String)
    (x : JsonValue) (hx : isJsonObject x = true ∨ isPrimitiveValue x = true)
    (hwf : wfValue x = true) (hb : 2 * jsonSize x + 16 ≤ fuel) :
    compareObjects cfg fuel path x x = .ok [] := by
  cases x with
  | obj lf =>
    exact (self_diff fuel).1 cfg path lf (by rw [wfValue] at hwf; exact hwf)
      (by simp only [jsonSize] at hb; omega)
  | arr l => simp [isJsonObject, isPrimitiveValue] at hx
  | null =>
    cases fuel with
    | zero => omega
    | succ fuel => rfl
  | bool b =>
    cases fuel with
    | zero => omega
    | succ fuel =>
      rw [compareObjects_succ, if_pos (by simp [isPrimitiveValue]), jvBEq_refl]
      simp
  | num n =>
    cases fuel with
    | zero => omega
    | succ fuel =>
      rw [compareObjects_succ, if_pos (by simp [isPrimitiveValue]), jvBEq_refl]
      simp
  | str s =>
    cases fuel with
    | zero => omega
    | succ fuel =>
      rw [compareObjects_succ, if_pos (by simp [isPrimitiveValue]), jvBEq_refl]
      simp

theorem compareArrayByIndex_self :
    ∀ (fuel : Nat) (cfg : JsonPatchConfig) (lrem : List JsonValue) (path : String) (ci : Nat),
      wfList lrem = true →
      (∀ x ∈ lrem, isJsonObject x = true ∨ isPrimitiveValue x = true) →
      2 * jsonSizeList lrem + 18 ≤ fuel →
      compareArrayByIndex cfg fuel lrem lrem path ci = .ok [] := by
  intro fuel
  induction fuel with
  | zero => intros; omega
  | succ fuel ih =>
    intro cfg lrem path ci hwf hna hb
    rw [compareArrayByIndex_succ]
    cases lrem with
    | nil => rfl
    | cons x ls =>
      dsimp only
      rw [wfList] at hwf
      simp only [Bool.and_eq_true] at hwf
      simp only [jsonSizeList] at hb
      rw [compareObjects_self_nonarr cfg fuel (path ++ "/" ++ toString ci) x
        (hna x (List.mem_cons_self _ _)) hwf.1
        (by have := jsonSizeList_pos ls; omega)]
      rw [ih cfg ls path (ci + 1) hwf.2
        (fun y hy => hna y (List.mem_cons_of_mem _ hy))
        (by have := jsonSize_pos x; omega)]
      rfl

/-- The move loop is the identity when the shadow list already equals the
right-hash list. -/
theorem hashMoveLoop_id (rh : List String) : ∀ i, hashMoveLoop rh rh i = ([], rh) := by
  intro i
  induction i with
  | zero => rfl
  | succ i ih =>
    rw [hashMoveLoop_succ]
    dsimp only
    rw [if_neg (by simp)]
    exact ih

theorem map_eq_of_eq_on {α β : Type _} (f g : α → β) :
    ∀ (l : List α), (∀ x ∈ l, f x = g x) → l.map f = l.map g := by
  intro l
  induction l with
  | nil => intro _; rfl
  | cons x xs ih =>
    intro h
    simp only [List.map_cons]
    rw [h x (List.mem_cons_self _ _), ih (fun y hy => h y (List.mem_cons_of_mem _ hy))]

theorem getD_map_hash {f : JsonValue → String} :
    ∀ (l : List JsonValue) (j : Nat), j < l.length →
      (l.map f).getD j "" = f (l.getD j JsonValue.null) := by
  intro l
  induction l with
  | nil => intro j h; simp at h
  | cons x xs ih =>
    intro j h
    cases j with
    | zero => simp
    | succ j =>
      simp only [List.map_cons, List.getD_cons_succ]
      exact ih j (by simpa using Nat.lt_of_succ_lt_succ h)

theorem wfValue_of_mem_list {x : JsonValue} :
    ∀ {l : List JsonValue}, wfList l = true → x ∈ l → wfValue x = true := by
  intro l
  induction l with
  | nil => intro _ h; cases h
  | cons z zs ih =>
    intro hwf h
    rw [wfList] at hwf
    simp only [Bool.and_eq_true] at hwf
    rcases List.mem_cons.mp h with he | hm
    · subst he; exact hwf.1
    · exact ih hwf.2 hm

theorem hashLeftLoop_self :
    ∀ (fuel : Nat) (cfg : JsonPatchConfig) (h : ObjectHash) (lfull : List JsonValue)
      (path : String) (lsub : List JsonValue) (ci : Nat) (target : List String),
      wfList lfull = true →
      (∀ x ∈ lfull, isJsonObject x = true ∨ isPrimitiveValue x = true) →
      (∀ x ∈ lfull, h x ⟨.left, path⟩ = h x ⟨.right, path⟩) →
      (∀ x ∈ lfull, ∀ y ∈ lfull, h x ⟨.right, path⟩ = h y ⟨.right, path⟩ → x = y) →
      (∀ x ∈ lsub, x ∈ lfull) →
      jsonSizeList lsub + 2 * jsonSizeList lfull + 18 ≤ fuel →
      hashLeftLoop cfg fuel lfull (lfull.map fun v => h v ⟨.right, path⟩) path ci
        (lsub.zip (lsub.map fun v => h v ⟨.left, path⟩)) target =
        .ok ([], target ++ lsub.map (fun v => h v ⟨.left, path⟩), ci + lsub.length) := by
  intro fuel
  induction fuel with
  | zero => intros; omega
  | succ fuel ih =>
    intro cfg h lfull path lsub ci target hwf hna hside hfaith hsub hb
    cases lsub with
    | nil =>
      rw [hashLeftLoop_succ]
      simp
    | cons x ls =>
      simp only [List.map_cons, List.zip_cons_cons]
      rw [hashLeftLoop_succ]
      dsimp only
      have hxl : x ∈ lfull := hsub x (List.mem_cons_self _ _)
      have hhx : h x ⟨.left, path⟩ = h x ⟨.right, path⟩ := hside x hxl
      have hmemrh : h x ⟨.left, path⟩ ∈ lfull.map (fun v => h v ⟨.right, path⟩) := by
        rw [hhx]
        exact List.mem_map_of_mem _ hxl
      have hsome := jsFindIndex_isSome_of_mem hmemrh
      cases hfi : jsFindIndex (fun s => s == h x ⟨.left, path⟩)
          (lfull.map fun v => h v ⟨.right, path⟩) with
      | none => rw [hfi] at hsome; simp at hsome
      | some j =>
        have hj := jsFindIndex_lt_length hfi
        have hjl : j < lfull.length := by simpa using hj
        have hgd : (lfull.map fun v => h v ⟨.right, path⟩).getD j "" =
            h x ⟨.left, path⟩ := eq_of_beq (jsFindIndex_getD "" hfi)
        have hgdmap := getD_map_hash (f := fun v => h v ⟨.right, path⟩) lfull j hjl
        have hymem : lfull.getD j JsonValue.null ∈ lfull := getD_mem lfull j _ hjl
        have hyx : lfull.getD j JsonValue.null = x := by
          refine (hfaith x hxl (lfull.getD j JsonValue.null) hymem ?_).symm
          rw [← hhx, ← hgd, hgdmap]
        dsimp only
        rw [hyx]
        simp only [jsonSizeList] at hb
        rw [compareObjects_self_nonarr cfg fuel (path ++ "/" ++ toString ci) x
          (hna x hxl) (wfValue_of_mem_list hwf hxl)
          (by have h1 := jsonSize_mem_list hxl; have h2 := jsonSizeList_pos ls; omega)]
        rw [ih cfg h lfull path ls (ci + 1) (target ++ [h x ⟨.left, path⟩]) hwf hna hside
          hfaith (fun q hq => hsub q (List.mem_cons_of_mem _ hq))
          (by have := jsonSize_pos x; omega)]
        have harith : ci + 1 + ls.length = ci + (ls.length + 1) := by omega
        rw [List.length_cons, harith, ← List.append_cons]
        rfl

theorem compareArrayByHash_self (cfg : JsonPatchConfig) (fuel : Nat) (h : ObjectHash)
    (l : List JsonValue) (path : String)
    (hoh : cfg.objectHash = some h)
    (hwf : wfList l = true)
    (hna : ∀ x ∈ l, isJsonObject x = true ∨ isPrimitiveValue x = true)
    (hside : ∀ x ∈ l, h x ⟨.left, path⟩ = h x ⟨.right, path⟩)
    (hfaith : ∀ x ∈ l, ∀ y ∈ l, h x ⟨.right, path⟩ = h y ⟨.right, path⟩ → x = y)
    (hb : 3 * jsonSizeList l + 20 ≤ fuel) :
    compareArrayByHash cfg fuel l l path = .ok [] := by
  cases fuel with
  | zero => omega
  | succ fuel =>
    rw [compareArrayByHash_succ, hoh]
    dsimp only
    rw [hashLeftLoop_self fuel cfg h l path l 0 [] hwf hna hside hfaith
      (fun q hq => hq) (by omega)]
    dsimp only
    simp only [List.nil_append]
    have hlr : l.map (fun v => h v ⟨.left, path⟩) = l.map (fun v => h v ⟨.right, path⟩) :=
      map_eq_of_eq_on _ _ l hside
    have htb : (l.map fun v => h v ⟨.right, path⟩).filter
        (fun hh => !((l.map (fun v => h v ⟨.left, path⟩)).contains hh)) = [] := by
      rw [List.filter_eq_nil]
      intro hh hmem
      rw [contains_of_mem (by rw [hlr]; exact hmem)]
      simp
    rw [htb]
    by_cases hig : cfg.arrayIgnoreMove = true
    · rw [if_pos hig]
      rfl
    · rw [if_neg hig]
      rw [hashAddLoop_target]
      simp only [List.append_nil]
      rw [hlr, hashMoveLoop_id]
      rfl

/-- **C8 counterexample**: the serialized-equality short circuit is NOT
equivalent to running the full reconciliation on equal inputs for every
config: on the serialization-equal arrays `[[1]]` and `[[1]]` (under the
empty config, index strategy) the gated `compareArrays` emits nothing
while the gate-free algorithm emits `replace /0` — nested equal array
elements always hit the one-side-is-an-array replace rule. -/
theorem c8_counterexample :
    compareArraysNoShortCircuit {} 40 [.arr [.num 1]] [.arr [.num 1]] "" =
      .ok [.replace "/0" (.arr [.num 1])] ∧
    compareArrays {} 40 [.arr [.num 1]] [.arr [.num 1]] "" = .ok [] :=
  ⟨rfl, rfl⟩

/-- **C8 amended**: with the short circuit removed, reconciling two equal
arrays still emits no operations — matching the gate — provided the
elements are objects or primitives (not nested arrays) and well-formed,
and a configured `objectHash` honours the spec's callback contract on
these elements (deterministic across sides and collision-free). -/
theorem c8_short_circuit_amended (cfg : JsonPatchConfig) (fuel : Nat)
    (l : List JsonValue) (path : String)
    (hwf : wfList l = true)
    (hna : ∀ x ∈ l, isJsonObject x = true ∨ isPrimitiveValue x = true)
    (hhash : ∀ h, cfg.objectHash = some h →
      (∀ x ∈ l, h x ⟨.left, path⟩ = h x ⟨.right, path⟩) ∧
      (∀ x ∈ l, ∀ y ∈ l, h x ⟨.right, path⟩ = h y ⟨.right, path⟩ → x = y))
    (hb : 3 * jsonSizeList l + 20 ≤ fuel) :
    compareArraysNoShortCircuit cfg fuel l l path = .ok [] ∧
    compareArrays cfg fuel l l path = .ok [] := by
  constructor
  · unfold compareArraysNoShortCircuit
    cases hoh : cfg.objectHash with
    | some h =>
      exact compareArrayByHash_self cfg fuel h l path hoh hwf hna
        (hhash h hoh).1 (hhash h hoh).2 hb
    | none =>
      exact compareArrayByIndex_self fuel cfg l path 0 hwf hna (by omega)
  · exact compareArrays_self cfg fuel l path (by omega)

/-- Witness for **C8** on a one-element object array with the id hash. -/
theorem c8_short_circuit_amended_witness :
    compareArraysNoShortCircuit { objectHash := some hashById } 40
      [JsonValue.obj [("id", .num 1)]] [JsonValue.obj [("id", .num 1)]] "" = .ok [] ∧
    compareArrays { objectHash := some hashById } 40
      [JsonValue.obj [("id", .num 1)]] [JsonValue.obj [("id", .num 1)]] "" = .ok [] :=
  c8_short_circuit_amended { objectHash := some hashById } 40
    [JsonValue.obj [("id", .num 1)]] "" (by decide) (by decide)
    (by
      intro h heq
      injection heq with he
      subst he
      refine ⟨fun x hx => rfl, ?_⟩
      intro x hx y hy _
      rw [List.mem_singleton.mp hx, List.mem_singleton.mp hy])
    (by decide)

/-! ## Paths of emitted operations -/

/-- The `path` field of an operation (for `move`/`copy`: the target path). -/
def opPath : Operation → String
  | .add p _ => p
  | .remove p => p
  | .replace p _ => p
  | .move _ p => p
  | .copy _ p => p
  | .test p _ => p

/-- The operation's path strictly extends `q` by a slash-separated suffix. -/
def StrictExt (q : String) (op : Operation) : Prop :=
  ∃ t, opPath op = q ++ "/" ++ t

/-- The operation's path extends `q`: either strictly, or the operation is a
`replace` at `q` itself — the only kind the differ emits at its own path. -/
def PathExt (q : String) (op : Operation) : Prop :=
  StrictExt q op ∨ (opPath op = q ∧ ∃ v, op = Operation.replace q v)

theorem string_append_left_cancel {a b c : String} (h : a ++ b = a ++ c) : b = c := by
  have hd := congrArg String.data h
  rw [String.data_append, String.data_append] at hd
  have hbc := List.append_cancel_left hd
  cases b; cases c; exact congrArg String.mk hbc

theorem slash_mem_of_append {k2 t k : String} (h : k2 ++ "/" ++ t = k) :
    '/' ∈ k.data := by
  have hd := congrArg String.data h
  rw [String.data_append, String.data_append] at hd
  rw [← hd]
  have hslash : ("/" : String).data = ['/'] := rfl
  rw [hslash]
  simp

theorem strictExt_extend {q k : String} {op : Operation}
    (h : PathExt (q ++ "/" ++ k) op) : StrictExt q op := by
  rcases h with ⟨t, ht⟩ | ⟨hp, _⟩
  · refine ⟨k ++ "/" ++ t, ?_⟩
    rw [ht]
    simp [String.append_assoc]
  · exact ⟨k, hp⟩

/-- Inversion for the sequenced-result pattern of the pack. -/
theorem seqOk {X Y : Except DiffFailure Patch} {out : Patch}
    (h : (match X with
          | .error e => (.error e : Except DiffFailure Patch)
          | .ok sub =>
            match Y with
            | .error e => .error e
            | .ok ops => .ok (sub ++ ops)) = .ok out) :
    ∃ sub ops, X = .ok sub ∧ Y = .ok ops ∧ out = sub ++ ops := by
  cases X with
  | error e => simp at h
  | ok sub =>
    cases Y with
    | error e => simp at h
    | ok ops =>
      refine ⟨sub, ops, rfl, rfl, ?_⟩
      injection h with h1
      exact h1.symm

/-- Inversion for the prepended-operation pattern of the pack. -/
theorem consOk {Y : Except DiffFailure Patch} {op0 : Operation} {out : Patch}
    (h : (match Y with
          | .error e => (.error e : Except DiffFailure Patch)
          | .ok ops => .ok (op0 :: ops)) = .ok out) :
    ∃ ops, Y = .ok ops ∧ out = op0 :: ops := by
  cases Y with
  | error e => simp at h
  | ok ops =>
    refine ⟨ops, rfl, ?_⟩
    injection h with h1
    exact h1.symm

/-- Inversion for the matched branch of `hashLeftLoop`. -/
theorem seqOkTriple {X : Except DiffFailure Patch}
    {Y : Except DiffFailure (Patch × List String × Nat)}
    {res : Patch × List String × Nat}
    (h : (match X with
          | .error e => (.error e : Except DiffFailure (Patch × List String × Nat))
          | .ok sub =>
            match Y with
            | .error e => .error e
            | .ok (ops, tfin, cfin) => .ok (sub ++ ops, tfin, cfin)) = .ok res) :
    ∃ sub ops tfin cfin, X = .ok sub ∧ Y = .ok (ops, tfin, cfin) ∧
      res = (sub ++ ops, tfin, cfin) := by
  cases X with
  | error e => simp at h
  | ok sub =>
    cases Y with
    | error e => simp at h
    | ok r2 =>
      obtain ⟨ops, tfin, cfin⟩ := r2
      refine ⟨sub, ops, tfin, cfin, rfl, rfl, ?_⟩
      injection h with h1
      exact h1.symm

/-- Inversion for the removal branch of `hashLeftLoop`. -/
theorem consOkTriple {Y : Except DiffFailure (Patch × List String × Nat)}
    {op0 : Operation} {res : Patch × List String × Nat}
    (h : (match Y with
          | .error e => (.error e : Except DiffFailure (Patch × List String × Nat))
          | .ok (ops, tfin, cfin) => .ok (op0 :: ops, tfin, cfin)) = .ok res) :
    ∃ ops tfin cfin, Y = .ok (ops, tfin, cfin) ∧ res = (op0 :: ops, tfin, cfin) := by
  cases Y with
  | error e => simp at h
  | ok r2 =>
    obtain ⟨ops, tfin, cfin⟩ := r2
    refine ⟨ops, tfin, cfin, rfl, ?_⟩
    injection h with h1
    exact h1.symm

/-- Every operation of the add loop sits strictly below the array's path. -/
theorem hashAddLoop_strictExt (rArr : List JsonValue) (rh : List String) (path : String) :
    ∀ (toAdd : List String) (ci : Nat) (target : List String) (op : Operation),
      op ∈ (hashAddLoop rArr rh path ci target toAdd).1 → StrictExt path op := by
  intro toAdd
  induction toAdd with
  | nil => intro ci target op h; simp [hashAddLoop] at h
  | cons hh rest ih =>
    intro ci target op h
    rw [hashAddLoop] at h
    dsimp only at h
    rcases List.mem_cons.mp h with he | hm
    · exact ⟨toString ci, by rw [he]; rfl⟩
    · exact ih (ci + 1) (target ++ [hh]) op hm

/-- Characterization of the left-only removal loop: every emitted operation
is a `remove` at `path/key` for some key of the remaining left fields
that the left-side filter keeps and the right object lacks. -/
theorem leftKeyLoop_mem (cfg : JsonPatchConfig) (path : String)
    (rf : List (String × JsonValue)) :
    ∀ (lfRem : List (String × JsonValue)) (op : Operation),
      op ∈ leftKeyLoop cfg path rf lfRem →
      ∃ k2, op = .remove (path ++ "/" ++ k2) ∧
        keptByFilter cfg k2 .left path = true ∧ objHasOwn rf k2 = false := by
  intro lfRem
  induction lfRem with
  | nil => intro op h; simp [leftKeyLoop] at h
  | cons p rest ih =>
    intro op h
    obtain ⟨k, v⟩ := p
    rw [leftKeyLoop] at h
    split at h
    · exact ih op h
    · next hkept =>
      split at h
      · next hown =>
        rcases List.mem_cons.mp h with he | hm
        · refine ⟨k, he, ?_, ?_⟩
          · cases hk : keptByFilter cfg k .left path with
            | true => rfl
            | false => rw [hk] at hkept; simp at hkept
          · cases ho : objHasOwn rf k with
            | true => rw [ho] at hown; simp at hown
            | false => rfl
        · exact ih op hm
      · exact ih op h

/-- Every operation a call of the pack emits has a path extending the call's
own path argument; only `replace` can sit at the path itself, and the
loops only emit strictly below it. -/
theorem pathext_pack : ∀ fuel : Nat,
    (∀ cfg path l r out, compareObjects cfg fuel path l r = .ok out →
      ∀ op ∈ out, PathExt path op)
  ∧ (∀ cfg path lf rfRem out, rightKeyLoop cfg fuel path lf rfRem = .ok out →
      ∀ op ∈ out, StrictExt path op)
  ∧ (∀ cfg l r path out, compareArrays cfg fuel l r path = .ok out →
      ∀ op ∈ out, StrictExt path op)
  ∧ (∀ cfg l r path out, compareArrayByHash cfg fuel l r path = .ok out →
      ∀ op ∈ out, StrictExt path op)
  ∧ (∀ cfg rArr rh path ci lrem target res,
      hashLeftLoop cfg fuel rArr rh path ci lrem target = .ok res →
      ∀ op ∈ res.1, StrictExt path op)
  ∧ (∀ cfg l r path ci out, compareArrayByIndex cfg fuel l r path ci = .ok out →
      ∀ op ∈ out, StrictExt path op) := by
  intro fuel
  induction fuel with
  | zero =>
    refine ⟨?_, ?_, ?_, ?_, ?_, ?_⟩
    · intro cfg path l r out hok; simp [compareObjects] at hok
    · intro cfg path lf rfRem out hok; simp [rightKeyLoop] at hok
    · intro cfg l r path out hok; simp [compareArrays] at hok
    · intro cfg l r path out hok; simp [compareArrayByHash] at hok
    · intro cfg rArr rh path ci lrem target res hok; simp [hashLeftLoop] at hok
    · intro cfg l r path ci out hok; simp [compareArrayByIndex] at hok
  | succ fuel ih =>
    obtain ⟨ihco, ihrk, ihca, ihbh, ihhl, ihbi⟩ := ih
    have Pco : ∀ cfg path l r out, compareObjects cfg (fuel + 1) path l r = .ok out →
        ∀ op ∈ out, PathExt path op := by
      intro cfg path l r out hok op hop
      rw [compareObjects_succ] at hok
      by_cases hprim : (isPrimitiveValue l || isPrimitiveValue r) = true
      · rw [if_pos hprim] at hok
        split at hok
        · injection hok with h1
          subst h1
          have he := List.mem_singleton.mp hop
          subst he
          exact Or.inr ⟨rfl, r, rfl⟩
        · injection hok with h1
          subst h1
          cases hop
      · rw [if_neg hprim] at hok
        cases l with
        | null => simp [isPrimitiveValue] at hprim
        | bool b => simp [isPrimitiveValue] at hprim
        | num n => simp [isPrimitiveValue] at hprim
        | str s => simp [isPrimitiveValue] at hprim
        | arr la =>
          cases r with
          | null => simp [isPrimitiveValue] at hprim
          | bool b => simp [isPrimitiveValue] at hprim
          | num n => simp [isPrimitiveValue] at hprim
          | str s => simp [isPrimitiveValue] at hprim
          | obj rf =>
            dsimp only at hok
            injection hok with h1
            subst h1
            have he := List.mem_singleton.mp hop
            subst he
            exact Or.inr ⟨rfl, _, rfl⟩
          | arr ra =>
            dsimp only at hok
            by_cases hpath : (path == "") = true
            · rw [if_pos hpath] at hok
              obtain ⟨t, ht⟩ := ihca cfg la ra "" out hok op hop
              exact Or.inl ⟨t, by rw [eq_of_beq hpath]; exact ht⟩
            · rw [if_neg hpath] at hok
              injection hok with h1
              subst h1
              have he := List.mem_singleton.mp hop
              subst he
              exact Or.inr ⟨rfl, _, rfl⟩
        | obj lf =>
          cases r with
          | null => simp [isPrimitiveValue] at hprim
          | bool b => simp [isPrimitiveValue] at hprim
          | num n => simp [isPrimitiveValue] at hprim
          | str s => simp [isPrimitiveValue] at hprim
          | arr ra =>
            dsimp only at hok
            injection hok with h1
            subst h1
            have he := List.mem_singleton.mp hop
            subst he
            exact Or.inr ⟨rfl, _, rfl⟩
          | obj rf =>
            dsimp only at hok
            cases hrk : rightKeyLoop cfg fuel path lf rf with
            | error e => rw [hrk] at hok; simp at hok
            | ok rkOps =>
              rw [hrk] at hok
              dsimp only at hok
              injection hok with h1
              subst h1
              rcases List.mem_append.mp hop with hm | hm
              · exact Or.inl (ihrk cfg path lf rf rkOps hrk op hm)
              · obtain ⟨k2, heq, _, _⟩ := leftKeyLoop_mem cfg path rf lf op hm
                exact Or.inl ⟨k2, by rw [heq]; rfl⟩
    have Prk : ∀ cfg path lf rfRem out, rightKeyLoop cfg (fuel + 1) path lf rfRem = .ok out →
        ∀ op ∈ out, StrictExt path op := by
      intro cfg path lf rfRem out hok op hop
      rw [rightKeyLoop_succ] at hok
      cases rfRem with
      | nil =>
        injection hok with h1
        subst h1
        cases hop
      | cons hd rest =>
        obtain ⟨k, rv⟩ := hd
        dsimp only at hok
        split at hok
        · exact ihrk cfg path lf rest out hok op hop
        · cases hget : objGet lf k with
          | some lval =>
            rw [hget] at hok
            cases rv with
            | arr rvl =>
              cases lval with
              | arr lv =>
                dsimp only at hok
                obtain ⟨sub, ops, hsub, hops, hout⟩ := seqOk hok
                subst hout
                rcases List.mem_append.mp hop with hm | hm
                · exact strictExt_extend
                    (Or.inl (ihca cfg lv rvl (path ++ "/" ++ k) sub hsub op hm))
                · exact ihrk cfg path lf rest ops hops op hm
              | obj lvf =>
                dsimp only [isJsonObject] at hok
                rw [if_neg (by simp)] at hok
                split at hok
                · obtain ⟨ops, hops, hout⟩ := consOk hok
                  subst hout
                  rcases List.mem_cons.mp hop with he | hm
                  · exact ⟨k, by rw [he]; rfl⟩
                  · exact ihrk cfg path lf rest ops hops op hm
                · exact ihrk cfg path lf rest out hok op hop
              | null =>
                dsimp only [isJsonObject] at hok
                rw [if_neg (by simp)] at hok
                split at hok
                · obtain ⟨ops, hops, hout⟩ := consOk hok
                  subst hout
                  rcases List.mem_cons.mp hop with he | hm
                  · exact ⟨k, by rw [he]; rfl⟩
                  · exact ihrk cfg path lf rest ops hops op hm
                · exact ihrk cfg path lf rest out hok op hop
              | bool b =>
                dsimp only [isJsonObject] at hok
                rw [if_neg (by simp)] at hok
                split at hok
                · obtain ⟨ops, hops, hout⟩ := consOk hok
                  subst hout
                  rcases List.mem_cons.mp hop with he | hm
                  · exact ⟨k, by rw [he]; rfl⟩
                  · exact ihrk cfg path lf rest ops hops op hm
                · exact ihrk cfg path lf rest out hok op hop
              | num n =>
                dsimp only [isJsonObject] at hok
                rw [if_neg (by simp)] at hok
                split at hok
                · obtain ⟨ops, hops, hout⟩ := consOk hok
                  subst hout
                  rcases List.mem_cons.mp hop with he | hm
                  · exact ⟨k, by rw [he]; rfl⟩
                  · exact ihrk cfg path lf rest ops hops op hm
                · exact ihrk cfg path lf rest out hok op hop
              | str s =>
                dsimp only [isJsonObject] at hok
                rw [if_neg (by simp)] at hok
                split at hok
                · obtain ⟨ops, hops, hout⟩ := consOk hok
                  subst hout
                  rcases List.mem_cons.mp hop with he | hm
                  · exact ⟨k, by rw [he]; rfl⟩
                  · exact ihrk cfg path lf rest ops hops op hm
                · exact ihrk cfg path lf rest out hok op hop
            | obj rvf =>
              cases lval with
              | obj lvf =>
                dsimp only [isJsonObject] at hok
                rw [if_pos rfl, if_pos rfl] at hok
                obtain ⟨sub, ops, hsub, hops, hout⟩ := seqOk hok
                subst hout
                rcases List.mem_append.mp hop with hm | hm
                · exact strictExt_extend
                    (ihco cfg (path ++ "/" ++ k) (.obj lvf) (.obj rvf) sub hsub op hm)
                · exact ihrk cfg path lf rest ops hops op hm
              | arr lv =>
                dsimp only [isJsonObject] at hok
                rw [if_pos rfl, if_neg (by simp)] at hok
                obtain ⟨ops, hops, hout⟩ := consOk hok
                subst hout
                rcases List.mem_cons.mp hop with he | hm
                · exact ⟨k, by rw [he]; rfl⟩
                · exact ihrk cfg path lf rest ops hops op hm
              | null =>
                dsimp only [isJsonObject] at hok
                rw [if_pos rfl, if_neg (by simp)] at hok
                obtain ⟨ops, hops, hout⟩ := consOk hok
                subst hout
                rcases List.mem_cons.mp hop with he | hm
                · exact ⟨k, by rw [he]; rfl⟩
                · exact ihrk cfg path lf rest ops hops op hm
              | bool b =>
                dsimp only [isJsonObject] at hok
                rw [if_pos rfl, if_neg (by simp)] at hok
                obtain ⟨ops, hops, hout⟩ := consOk hok
                subst hout
                rcases List.mem_cons.mp hop with he | hm
                · exact ⟨k, by rw [he]; rfl⟩
                · exact ihrk cfg path lf rest ops hops op hm
              | num n =>
                dsimp only [isJsonObject] at hok
                rw [if_pos rfl, if_neg (by simp)] at hok
                obtain ⟨ops, hops, hout⟩ := consOk hok
                subst hout
                rcases List.mem_cons.mp hop with he | hm
                · exact ⟨k, by rw [he]; rfl⟩
                · exact ihrk cfg path lf rest ops hops op hm
              | str s =>
                dsimp only [isJsonObject] at hok
                rw [if_pos rfl, if_neg (by simp)] at hok
                obtain ⟨ops, hops, hout⟩ := consOk hok
                subst hout
                rcases List.mem_cons.mp hop with he | hm
                · exact ⟨k, by rw [he]; rfl⟩
                · exact ihrk cfg path lf rest ops hops op hm
            | null =>
              cases lval <;>
                (dsimp only [isJsonObject] at hok
                 rw [if_neg (by simp)] at hok
                 split at hok <;>
                   (first
                     | (obtain ⟨ops, hops, hout⟩ := consOk hok
                        subst hout
                        rcases List.mem_cons.mp hop with he | hm
                        · exact ⟨k, by rw [he]; rfl⟩
                        · exact ihrk cfg path lf rest ops hops op hm)
                     | exact ihrk cfg path lf rest out hok op hop))
            | bool b =>
              cases lval <;>
                (dsimp only [isJsonObject] at hok
                 rw [if_neg (by simp)] at hok
                 split at hok <;>
                   (first
                     | (obtain ⟨ops, hops, hout⟩ := consOk hok
                        subst hout
                        rcases List.mem_cons.mp hop with he | hm
                        · exact ⟨k, by rw [he]; rfl⟩
                        · exact ihrk cfg path lf rest ops hops op hm)
                     | exact ihrk cfg path lf rest out hok op hop))
            | num n =>
              cases lval <;>
                (dsimp only [isJsonObject] at hok
                 rw [if_neg (by simp)] at hok
                 split at hok <;>
                   (first
                     | (obtain ⟨ops, hops, hout⟩ := consOk hok
                        subst hout
                        rcases List.mem_cons.mp hop with he | hm
                        · exact ⟨k, by rw [he]; rfl⟩
                        · exact ihrk cfg path lf rest ops hops op hm)
                     | exact ihrk cfg path lf rest out hok op hop))
            | str s =>
              cases lval <;>
                (dsimp only [isJsonObject] at hok
                 rw [if_neg (by simp)] at hok
                 split at hok <;>
                   (first
                     | (obtain ⟨ops, hops, hout⟩ := consOk hok
                        subst hout
                        rcases List.mem_cons.mp hop with he | hm
                        · exact ⟨k, by rw [he]; rfl⟩
                        · exact ihrk cfg path lf rest ops hops op hm)
                     | exact ihrk cfg path lf rest out hok op hop))
          | none =>
            rw [hget] at hok
            cases rv with
            | arr rvl =>
              dsimp only [isJsonObject] at hok
              rw [if_neg (by simp)] at hok
              obtain ⟨ops, hops, hout⟩ := consOk hok
              subst hout
              rcases List.mem_cons.mp hop with he | hm
              · exact ⟨k, by rw [he]; rfl⟩
              · exact ihrk cfg path lf rest ops hops op hm
            | obj rvf =>
              dsimp only [isJsonObject] at hok
              rw [if_pos rfl] at hok
              obtain ⟨ops, hops, hout⟩ := consOk hok
              subst hout
              rcases List.mem_cons.mp hop with he | hm
              · exact ⟨k, by rw [he]; rfl⟩
              · exact ihrk cfg path lf rest ops hops op hm
            | null =>
              dsimp only [isJsonObject] at hok
              rw [if_neg (by simp)] at hok
              obtain ⟨ops, hops, hout⟩ := consOk hok
              subst hout
              rcases List.mem_cons.mp hop with he | hm
              · exact ⟨k, by rw [he]; rfl⟩
              · exact ihrk cfg path lf rest ops hops op hm
            | bool b =>
              dsimp only [isJsonObject] at hok
              rw [if_neg (by simp)] at hok
              obtain ⟨ops, hops, hout⟩ := consOk hok
              subst hout
              rcases List.mem_cons.mp hop with he | hm
              · exact ⟨k, by rw [he]; rfl⟩
              · exact ihrk cfg path lf rest ops hops op hm
            | num n =>
              dsimp only [isJsonObject] at hok
              rw [if_neg (by simp)] at hok
              obtain ⟨ops, hops, hout⟩ := consOk hok
              subst hout
              rcases List.mem_cons.mp hop with he | hm
              · exact ⟨k, by rw [he]; rfl⟩
              · exact ihrk cfg path lf rest ops hops op hm
            | str s =>
              dsimp only [isJsonObject] at hok
              rw [if_neg (by simp)] at hok
              obtain ⟨ops, hops, hout⟩ := consOk hok
              subst hout
              rcases List.mem_cons.mp hop with he | hm
              · exact ⟨k, by rw [he]; rfl⟩
              · exact ihrk cfg path lf rest ops hops op hm
    have Pca : ∀ cfg l r path out, compareArrays cfg (fuel + 1) l r path = .ok out →
        ∀ op ∈ out, StrictExt path op := by
      intro cfg l r path out hok op hop
      rw [compareArrays_succ] at hok
      split at hok
      · injection hok with h1
        subst h1
        cases hop
      · cases hoh : cfg.objectHash with
        | some h =>
          rw [hoh] at hok
          exact ihbh cfg l r path out hok op hop
        | none =>
          rw [hoh] at hok
          exact ihbi cfg l r path 0 out hok op hop
    have Pbh : ∀ cfg l r path out, compareArrayByHash cfg (fuel + 1) l r path = .ok out →
        ∀ op ∈ out, StrictExt path op := by
      intro cfg l r path out hok op hop
      rw [compareArrayByHash_succ] at hok
      cases hoh : cfg.objectHash with
      | none => rw [hoh] at hok; simp at hok
      | some h =>
        rw [hoh] at hok
        dsimp only at hok
        cases hres : hashLeftLoop cfg fuel r (r.map fun v => h v ⟨.right, path⟩) path 0
            (l.zip (l.map fun v => h v ⟨.left, path⟩)) [] with
        | error e => rw [hres] at hok; simp at hok
        | ok res =>
          obtain ⟨ops, target, ci⟩ := res
          rw [hres] at hok
          dsimp only at hok
          split at hok
          · injection hok with h1
            subst h1
            rcases List.mem_append.mp hop with hm | hm
            · exact ihhl cfg r _ path 0 _ [] (ops, target, ci) hres op hm
            · exact hashAddLoop_strictExt r _ path _ ci target op hm
          · injection hok with h1
            subst h1
            rcases List.mem_append.mp hop with hm2 | hm2
            · rcases List.mem_append.mp hm2 with hm | hm
              · exact ihhl cfg r _ path 0 _ [] (ops, target, ci) hres op hm
              · exact hashAddLoop_strictExt r _ path _ ci target op hm
            · obtain ⟨ct, _, heq⟩ := List.mem_map.mp hm2
              exact ⟨toString ct.2, by rw [← heq]; rfl⟩
    have Phl : ∀ cfg rArr rh path ci lrem target res,
        hashLeftLoop cfg (fuel + 1) rArr rh path ci lrem target = .ok res →
        ∀ op ∈ res.1, StrictExt path op := by
      intro cfg rArr rh path ci lrem target res hok op hop
      rw [hashLeftLoop_succ] at hok
      cases lrem with
      | nil =>
        injection hok with h1
        subst h1
        cases hop
      | cons hd rest =>
        obtain ⟨x, hx⟩ := hd
        dsimp only at hok
        cases hfi : jsFindIndex (fun s => s == hx) rh with
        | some j =>
          rw [hfi] at hok
          dsimp only at hok
          obtain ⟨sub, ops, tfin, cfin, hsub, hops, hres2⟩ := seqOkTriple hok
          subst hres2
          rcases List.mem_append.mp hop with hm | hm
          · exact strictExt_extend
              (ihco cfg (path ++ "/" ++ toString ci) x (rArr.getD j JsonValue.null) sub hsub op hm)
          · exact ihhl cfg rArr rh path (ci + 1) rest (target ++ [hx]) (ops, tfin, cfin) hops op hm
        | none =>
          rw [hfi] at hok
          dsimp only at hok
          obtain ⟨ops, tfin, cfin, hops, hres2⟩ := consOkTriple hok
          subst hres2
          rcases List.mem_cons.mp hop with he | hm
          · exact ⟨toString ci, by rw [he]; rfl⟩
          · exact ihhl cfg rArr rh path ci rest target (ops, tfin, cfin) hops op hm
    have Pbi : ∀ cfg l r path ci out, compareArrayByIndex cfg (fuel + 1) l r path ci = .ok out →
        ∀ op ∈ out, StrictExt path op := by
      intro cfg l r path ci out hok op hop
      rw [compareArrayByIndex_succ] at hok
      cases l with
      | nil =>
        cases r with
        | nil =>
          injection hok with h1
          subst h1
          cases hop
        | cons y rs =>
          dsimp only at hok
          obtain ⟨ops, hops, hout⟩ := consOk hok
          subst hout
          rcases List.mem_cons.mp hop with he | hm
          · exact ⟨toString ci, by rw [he]; rfl⟩
          · exact ihbi cfg [] rs path (ci + 1) ops hops op hm
      | cons x ls =>
        cases r with
        | nil =>
          dsimp only at hok
          obtain ⟨ops, hops, hout⟩ := consOk hok
          subst hout
          rcases List.mem_cons.mp hop with he | hm
          · exact ⟨toString ci, by rw [he]; rfl⟩
          · exact ihbi cfg ls [] path ci ops hops op hm
        | cons y rs =>
          dsimp only at hok
          obtain ⟨sub, ops, hsub, hops, hout⟩ := seqOk hok
          subst hout
          rcases List.mem_append.mp hop with hm | hm
          · exact strictExt_extend
              (ihco cfg (path ++ "/" ++ toString ci) x y sub hsub op hm)
          · exact ihbi cfg ls rs path (ci + 1) ops hops op hm
    exact ⟨Pco, Prk, Pca, Pbh, Phl, Pbi⟩

/-- A path one slash-free key below `path` never coincides with a path two or
more segments below `path`. -/
theorem deep_ne_level {path k k2 t : String} (hk : ¬ '/' ∈ k.data)
    (h : path ++ "/" ++ k2 ++ "/" ++ t = path ++ "/" ++ k) : False := by
  have h2 : (path ++ "/") ++ (k2 ++ "/" ++ t) = (path ++ "/") ++ k := by
    rw [← h]
    simp [String.append_assoc]
  exact hk (slash_mem_of_append (string_append_left_cancel h2))

/-- Any operation in the right-key loop's output whose path is exactly one
slash-free key below the loop's path stems from that very key: the key passed
the right-side filter and the operation is an `add` or a `replace` there. -/
theorem rk_at_level : ∀ (fuel : Nat) (cfg : JsonPatchConfig) (path : String)
    (lf rfRem : List (String × JsonValue)) (out : Patch) (k : String),
    ¬ '/' ∈ k.data →
    rightKeyLoop cfg fuel path lf rfRem = .ok out →
    ∀ op ∈ out, opPath op = path ++ "/" ++ k →
      keptByFilter cfg k .right path = true ∧
        ∃ v, op = .add (path ++ "/" ++ k) v ∨ op = .replace (path ++ "/" ++ k) v := by
  intro fuel
  induction fuel with
  | zero => intro cfg path lf rfRem out k hk hok; simp [rightKeyLoop] at hok
  | succ fuel ih =>
    intro cfg path lf rfRem out k hk hok op hop hpath
    rw [rightKeyLoop_succ] at hok
    cases rfRem with
    | nil =>
      injection hok with h1
      subst h1
      cases hop
    | cons hd rest =>
      obtain ⟨k2, rv⟩ := hd
      dsimp only at hok
      split at hok
      · exact ih cfg path lf rest out k hk hok op hop hpath
      · rename_i hkb
        have hkept2 : keptByFilter cfg k2 Side.right path = true := by
          simpa using hkb
        cases hget : objGet lf k2 with
        | some lval =>
          rw [hget] at hok
          cases rv with
          | arr rvl =>
            cases lval with
            | arr lv =>
              dsimp only at hok
              obtain ⟨sub, ops, hsub, hops, hout⟩ := seqOk hok
              subst hout
              rcases List.mem_append.mp hop with hm | hm
              · obtain ⟨t, ht⟩ :=
                  (pathext_pack fuel).2.2.1 cfg lv rvl (path ++ "/" ++ k2) sub hsub op hm
                have hcontra : path ++ "/" ++ k2 ++ "/" ++ t = path ++ "/" ++ k := by
                  rw [← ht]
                  exact hpath
                exact (deep_ne_level hk hcontra).elim
              · exact ih cfg path lf rest ops k hk hops op hm hpath
            | obj lvf =>
              dsimp only [isJsonObject] at hok
              rw [if_neg (by simp)] at hok
              split at hok
              · obtain ⟨ops, hops, hout⟩ := consOk hok
                subst hout
                rcases List.mem_cons.mp hop with he | hm
                · subst he
                  dsimp only [opPath] at hpath
                  have hkk := string_append_left_cancel hpath
                  subst hkk
                  exact ⟨hkept2, _, Or.inr rfl⟩
                · exact ih cfg path lf rest ops k hk hops op hm hpath
              · exact ih cfg path lf rest out k hk hok op hop hpath
            | null =>
              dsimp only [isJsonObject] at hok
              rw [if_neg (by simp)] at hok
              split at hok
              · obtain ⟨ops, hops, hout⟩ := consOk hok
                subst hout
                rcases List.mem_cons.mp hop with he | hm
                · subst he
                  dsimp only [opPath] at hpath
                  have hkk := string_append_left_cancel hpath
                  subst hkk
                  exact ⟨hkept2, _, Or.inr rfl⟩
                · exact ih cfg path lf rest ops k hk hops op hm hpath
              · exact ih cfg path lf rest out k hk hok op hop hpath
            | bool b =>
              dsimp only [isJsonObject] at hok
              rw [if_neg (by simp)] at hok
              split at hok
              · obtain ⟨ops, hops, hout⟩ := consOk hok
                subst hout
                rcases List.mem_cons.mp hop with he | hm
                · subst he
                  dsimp only [opPath] at hpath
                  have hkk := string_append_left_cancel hpath
                  subst hkk
                  exact ⟨hkept2, _, Or.inr rfl⟩
                · exact ih cfg path lf rest ops k hk hops op hm hpath
              · exact ih cfg path lf rest out k hk hok op hop hpath
            | num n =>
              dsimp only [isJsonObject] at hok
              rw [if_neg (by simp)] at hok
              split at hok
              · obtain ⟨ops, hops, hout⟩ := consOk hok
                subst hout
                rcases List.mem_cons.mp hop with he | hm
                · subst he
                  dsimp only [opPath] at hpath
                  have hkk := string_append_left_cancel hpath
                  subst hkk
                  exact ⟨hkept2, _, Or.inr rfl⟩
                · exact ih cfg path lf rest ops k hk hops op hm hpath
              · exact ih cfg path lf rest out k hk hok op hop hpath
            | str s =>
              dsimp only [isJsonObject] at hok
              rw [if_neg (by simp)] at hok
              split at hok
              · obtain ⟨ops, hops, hout⟩ := consOk hok
                subst hout
                rcases List.mem_cons.mp hop with he | hm
                · subst he
                  dsimp only [opPath] at hpath
                  have hkk := string_append_left_cancel hpath
                  subst hkk
                  exact ⟨hkept2, _, Or.inr rfl⟩
                · exact ih cfg path lf rest ops k hk hops op hm hpath
              · exact ih cfg path lf rest out k hk hok op hop hpath
          | obj rvf =>
            cases lval with
            | obj lvf =>
              dsimp only [isJsonObject] at hok
              rw [if_pos rfl, if_pos rfl] at hok
              obtain ⟨sub, ops, hsub, hops, hout⟩ := seqOk hok
              subst hout
              rcases List.mem_append.mp hop with hm | hm
              · rcases (pathext_pack fuel).1 cfg (path ++ "/" ++ k2) (.obj lvf) (.obj rvf)
                    sub hsub op hm with ⟨t, ht⟩ | ⟨hp, v, hv⟩
                · have hcontra : path ++ "/" ++ k2 ++ "/" ++ t = path ++ "/" ++ k := by
                    rw [← ht]
                    exact hpath
                  exact (deep_ne_level hk hcontra).elim
                · rw [hp] at hpath
                  have hkk := string_append_left_cancel hpath
                  subst hkk
                  exact ⟨hkept2, v, Or.inr hv⟩
              · exact ih cfg path lf rest ops k hk hops op hm hpath
            | arr lv =>
              dsimp only [isJsonObject] at hok
              rw [if_pos rfl, if_neg (by simp)] at hok
              obtain ⟨ops, hops, hout⟩ := consOk hok
              subst hout
              rcases List.mem_cons.mp hop with he | hm
              · subst he
                dsimp only [opPath] at hpath
                have hkk := string_append_left_cancel hpath
                subst hkk
                exact ⟨hkept2, _, Or.inr rfl⟩
              · exact ih cfg path lf rest ops k hk hops op hm hpath
            | null =>
              dsimp only [isJsonObject] at hok
              rw [if_pos rfl, if_neg (by simp)] at hok
              obtain ⟨ops, hops, hout⟩ := consOk hok
              subst hout
              rcases List.mem_cons.mp hop with he | hm
              · subst he
                dsimp only [opPath] at hpath
                have hkk := string_append_left_cancel hpath
                subst hkk
                exact ⟨hkept2, _, Or.inr rfl⟩
              · exact ih cfg path lf rest ops k hk hops op hm hpath
            | bool b =>
              dsimp only [isJsonObject] at hok
              rw [if_pos rfl, if_neg (by simp)] at hok
              obtain ⟨ops, hops, hout⟩ := consOk hok
              subst hout
              rcases List.mem_cons.mp hop with he | hm
              · subst he
                dsimp only [opPath] at hpath
                have hkk := string_append_left_cancel hpath
                subst hkk
                exact ⟨hkept2, _, Or.inr rfl⟩
              · exact ih cfg path lf rest ops k hk hops op hm hpath
            | num n =>
              dsimp only [isJsonObject] at hok
              rw [if_pos rfl, if_neg (by simp)] at hok
              obtain ⟨ops, hops, hout⟩ := consOk hok
              subst hout
              rcases List.mem_cons.mp hop with he | hm
              · subst he
                dsimp only [opPath] at hpath
                have hkk := string_append_left_cancel hpath
                subst hkk
                exact ⟨hkept2, _, Or.inr rfl⟩
              · exact ih cfg path lf rest ops k hk hops op hm hpath
            | str s =>
              dsimp only [isJsonObject] at hok
              rw [if_pos rfl, if_neg (by simp)] at hok
              obtain ⟨ops, hops, hout⟩ := consOk hok
              subst hout
              rcases List.mem_cons.mp hop with he | hm
              · subst he
                dsimp only [opPath] at hpath
                have hkk := string_append_left_cancel hpath
                subst hkk
                exact ⟨hkept2, _, Or.inr rfl⟩
              · exact ih cfg path lf rest ops k hk hops op hm hpath
          | null =>
            cases lval <;>
              (dsimp only [isJsonObject] at hok
               rw [if_neg (by simp)] at hok
               split at hok <;>
                 (first
                   | (obtain ⟨ops, hops, hout⟩ := consOk hok
                      subst hout
                      rcases List.mem_cons.mp hop with he | hm
                      · subst he
                        dsimp only [opPath] at hpath
                        have hkk := string_append_left_cancel hpath
                        subst hkk
                        exact ⟨hkept2, _, Or.inr rfl⟩
                      · exact ih cfg path lf rest ops k hk hops op hm hpath)
                   | exact ih cfg path lf rest out k hk hok op hop hpath))
          | bool b =>
            cases lval <;>
              (dsimp only [isJsonObject] at hok
               rw [if_neg (by simp)] at hok
               split at hok <;>
                 (first
                   | (obtain ⟨ops, hops, hout⟩ := consOk hok
                      subst hout
                      rcases List.mem_cons.mp hop with he | hm
                      · subst he
                        dsimp only [opPath] at hpath
                        have hkk := string_append_left_cancel hpath
                        subst hkk
                        exact ⟨hkept2, _, Or.inr rfl⟩
                      · exact ih cfg path lf rest ops k hk hops op hm hpath)
                   | exact ih cfg path lf rest out k hk hok op hop hpath))
          | num n =>
            cases lval <;>
              (dsimp only [isJsonObject] at hok
               rw [if_neg (by simp)] at hok
               split at hok <;>
                 (first
                   | (obtain ⟨ops, hops, hout⟩ := consOk hok
                      subst hout
                      rcases List.mem_cons.mp hop with he | hm
                      · subst he
                        dsimp only [opPath] at hpath
                        have hkk := string_append_left_cancel hpath
                        subst hkk
                        exact ⟨hkept2, _, Or.inr rfl⟩
                      · exact ih cfg path lf rest ops k hk hops op hm hpath)
                   | exact ih cfg path lf rest out k hk hok op hop hpath))
          | str s =>
            cases lval <;>
              (dsimp only [isJsonObject] at hok
               rw [if_neg (by simp)] at hok
               split at hok <;>
                 (first
                   | (obtain ⟨ops, hops, hout⟩ := consOk hok
                      subst hout
                      rcases List.mem_cons.mp hop with he | hm
                      · subst he
                        dsimp only [opPath] at hpath
                        have hkk := string_append_left_cancel hpath
                        subst hkk
                        exact ⟨hkept2, _, Or.inr rfl⟩
                      · exact ih cfg path lf rest ops k hk hops op hm hpath)
                   | exact ih cfg path lf rest out k hk hok op hop hpath))
        | none =>
          rw [hget] at hok
          cases rv <;>
            (dsimp only [isJsonObject] at hok
             first
               | rw [if_pos rfl] at hok
               | rw [if_neg (by simp)] at hok
             obtain ⟨ops, hops, hout⟩ := consOk hok
             subst hout
             rcases List.mem_cons.mp hop with he | hm
             · subst he
               dsimp only [opPath] at hpath
               have hkk := string_append_left_cancel hpath
               subst hkk
               exact ⟨hkept2, _, Or.inl rfl⟩
             · exact ih cfg path lf rest ops k hk hops op hm hpath)

/-- A property filter dropping exactly the key `"b"` on both sides. -/
def pfDropB : PropertyFilter := fun k _ => !(k == "b")

/-- **C9** (confirmed): propertyFilter asymmetry.  For any two objects, any
configured filter and any slash-free key: if the filter rejects the key in the
right-side context, the patch holds no `add` and no `replace` at that key's
path; if the key is absent on the right and the filter rejects it in the
left-side context, the patch holds no `remove` at that key's path.  Each side
consults the filter only with its own context, so filtering one side does not
filter the other. -/
theorem c9_property_filter
    (cfg : JsonPatchConfig) (pf : PropertyFilter) (fuel : Nat) (path k : String)
    (lf rf : List (String × JsonValue)) (out : Patch)
    (hpf : cfg.propertyFilter = some pf)
    (hk : ¬ '/' ∈ k.data)
    (hok : compareObjects cfg (fuel + 1) path (.obj lf) (.obj rf) = .ok out) :
    (pf k ⟨.right, path⟩ = false →
      ∀ v, Operation.add (path ++ "/" ++ k) v ∉ out ∧
        Operation.replace (path ++ "/" ++ k) v ∉ out) ∧
    (objGet rf k = none → pf k ⟨.left, path⟩ = false →
      Operation.remove (path ++ "/" ++ k) ∉ out) := by
  rw [compareObjects_succ] at hok
  rw [if_neg (by simp [isPrimitiveValue])] at hok
  dsimp only at hok
  cases hrk : rightKeyLoop cfg fuel path lf rf with
  | error e => rw [hrk] at hok; simp at hok
  | ok rkOps =>
    rw [hrk] at hok
    dsimp only at hok
    injection hok with h1
    subst h1
    have hkfR : keptByFilter cfg k Side.right path = pf k ⟨Side.right, path⟩ := by
      simp [keptByFilter, hpf]
    have hkfL : ∀ k2, keptByFilter cfg k2 Side.left path = pf k2 ⟨Side.left, path⟩ := by
      intro k2
      simp [keptByFilter, hpf]
    constructor
    · intro hfilter v
      constructor
      · intro hmem
        rcases List.mem_append.mp hmem with hm | hm
        · obtain ⟨hkept, _, _⟩ := rk_at_level fuel cfg path lf rf rkOps k hk hrk _ hm rfl
          rw [hkfR, hfilter] at hkept
          exact Bool.noConfusion hkept
        · obtain ⟨k2, heq, _, _⟩ := leftKeyLoop_mem cfg path rf lf _ hm
          exact Operation.noConfusion heq
      · intro hmem
        rcases List.mem_append.mp hmem with hm | hm
        · obtain ⟨hkept, _, _⟩ := rk_at_level fuel cfg path lf rf rkOps k hk hrk _ hm rfl
          rw [hkfR, hfilter] at hkept
          exact Bool.noConfusion hkept
        · obtain ⟨k2, heq, _, _⟩ := leftKeyLoop_mem cfg path rf lf _ hm
          exact Operation.noConfusion heq
    · intro _ hfilterL hmem
      rcases List.mem_append.mp hmem with hm | hm
      · obtain ⟨_, v2, hv⟩ := rk_at_level fuel cfg path lf rf rkOps k hk hrk _ hm rfl
        rcases hv with hv | hv <;> exact Operation.noConfusion hv
      · obtain ⟨k2, heq, hkeptL, _⟩ := leftKeyLoop_mem cfg path rf lf _ hm
        injection heq with hpe
        have hkk := string_append_left_cancel hpe
        subst hkk
        rw [hkfL, hfilterL] at hkeptL
        exact Bool.noConfusion hkeptL

/-- Witness for C9 at a concrete input: lf = {b:1}, rf = {a:2}, filter drops
key "b" on both sides; the diff is [add /a 2] and carries no operation at /b. -/
theorem c9_property_filter_witness :
    ({ propertyFilter := some pfDropB } : JsonPatchConfig).propertyFilter = some pfDropB ∧
    (¬ '/' ∈ "b".data) ∧
    compareObjects { propertyFilter := some pfDropB } 5 ""
      (.obj [("b", .num 1)]) (.obj [("a", .num 2)]) =
      .ok [Operation.add "/a" (JsonValue.num 2)] ∧
    ((pfDropB "b" ⟨Side.right, ""⟩ = false →
        ∀ v, Operation.add ("" ++ "/" ++ "b") v ∉ [Operation.add "/a" (JsonValue.num 2)] ∧
          Operation.replace ("" ++ "/" ++ "b") v ∉ [Operation.add "/a" (JsonValue.num 2)]) ∧
      (objGet [("a", JsonValue.num 2)] "b" = none → pfDropB "b" ⟨Side.left, ""⟩ = false →
        Operation.remove ("" ++ "/" ++ "b") ∉ [Operation.add "/a" (JsonValue.num 2)])) :=
  ⟨rfl, by decide, rfl,
    c9_property_filter { propertyFilter := some pfDropB } pfDropB 4 "" "b"
      [("b", JsonValue.num 1)] [("a", JsonValue.num 2)]
      [Operation.add "/a" (JsonValue.num 2)] rfl (by decide) rfl⟩

end GenJsonPatch
